import Mathlib

/-!
# Verification of the IceCave store (`src/icecave.js`)

A shallow embedding of the IceCave in-process record store.  The store keeps
an Immutable.js `List` (`core`) of values produced by `Immutable.fromJS`,
exposes `push` / `remove` / `set` / `get` / `find` / `filter` / `first` /
`last`, loads its initial contents from `<dir>/<name>.json` at construction
time, and periodically serialises `core.toJS()` with `JSON.stringify`.

Modelling conventions:
* JS primitive values are `Prim` (`undefined`, `null`, booleans, numbers,
  strings).  Numbers are modelled as integers: none of the verified
  properties depends on floating-point behaviour.
* Plain (mutable-world) JS trees are `Jx`; Immutable.js structures
  (`Immutable.List` / `Immutable.Map`) are `ImmVal`.  `Immutable.fromJS`
  is `Jx.toImm` (deep conversion of arrays to Lists and objects to Maps);
  `toJS` at the value level is `ImmVal.toJx`.
* Index arguments are integers, matching Immutable.js semantics: `get`,
  `set` and `delete` all resolve a negative index `i` to `size + i`
  (documented: `s.get(-1)` is the last item, `v.delete(-1)` deletes the
  last item), `delete` of an index that resolves outside `0..size-1` is a
  no-op (`List.remove` checks `has(index)` first), and `set` of an index
  resolving at or above `size` grows the list so that the resolved index
  exists (documented: `List().set(50000, 'value').size === 50001`),
  leaving the skipped slots unset, i.e. `undefined`.  `set` of an index
  resolving below `-size` grows the list at the front
  (`setListBounds(list, index).set(0, value)` in `updateList`).
* Aliasing questions (claims about mutating values passed to or returned
  from the store) are settled over an explicit heap model of plain JS
  values, defined further below.
-/

/-- JS primitive values.  `undefined` is the sentinel returned by
Immutable.js lookups that find nothing; numbers are modelled as integers. -/
inductive Prim where
  | undefined : Prim
  | null : Prim
  | bool (b : Bool) : Prim
  | int (n : Int) : Prim
  | str (s : String) : Prim
deriving DecidableEq, Repr

/-- A plain JS value tree (the result of `toJS`, and also the shape of a
parsed JSON document): primitives, arrays, and objects with ordered
string keys. -/
inductive Jx where
  | prim (p : Prim) : Jx
  | arr (xs : List Jx) : Jx
  | obj (kvs : List (String × Jx)) : Jx
deriving Repr

mutual
/-- Boolean (structural, deep) equality on plain JS trees. -/
def Jx.beq : Jx → Jx → Bool
  | .prim p, .prim q => p == q
  | .arr xs, .arr ys => Jx.beqList xs ys
  | .obj kvs, .obj lvs => Jx.beqKVs kvs lvs
  | _, _ => false

def Jx.beqList : List Jx → List Jx → Bool
  | [], [] => true
  | x :: xs, y :: ys => x.beq y && Jx.beqList xs ys
  | _, _ => false

def Jx.beqKVs : List (String × Jx) → List (String × Jx) → Bool
  | [], [] => true
  | (k, v) :: kvs, (l, w) :: lvs => k == l && v.beq w && Jx.beqKVs kvs lvs
  | _, _ => false
end

mutual
theorem Jx.beq_iff_eq : (a b : Jx) → (Jx.beq a b = true ↔ a = b)
  | .prim p, .prim q => by simp [Jx.beq]
  | .arr xs, .arr ys => by simp [Jx.beq, Jx.beqList_iff_eq xs ys]
  | .obj kvs, .obj lvs => by simp [Jx.beq, Jx.beqKVs_iff_eq kvs lvs]
  | .prim _, .arr _ => by simp [Jx.beq]
  | .prim _, .obj _ => by simp [Jx.beq]
  | .arr _, .prim _ => by simp [Jx.beq]
  | .arr _, .obj _ => by simp [Jx.beq]
  | .obj _, .prim _ => by simp [Jx.beq]
  | .obj _, .arr _ => by simp [Jx.beq]

theorem Jx.beqList_iff_eq : (xs ys : List Jx) → (Jx.beqList xs ys = true ↔ xs = ys)
  | [], [] => by simp [Jx.beqList]
  | x :: xs, y :: ys => by
      simp [Jx.beqList, Jx.beq_iff_eq x y, Jx.beqList_iff_eq xs ys]
  | [], _ :: _ => by simp [Jx.beqList]
  | _ :: _, [] => by simp [Jx.beqList]

theorem Jx.beqKVs_iff_eq : (kvs lvs : List (String × Jx)) →
    (Jx.beqKVs kvs lvs = true ↔ kvs = lvs)
  | [], [] => by simp [Jx.beqKVs]
  | (k, v) :: kvs, (l, w) :: lvs => by
      simp [Jx.beqKVs, Jx.beq_iff_eq v w, Jx.beqKVs_iff_eq kvs lvs, and_assoc]
  | [], _ :: _ => by simp [Jx.beqKVs]
  | _ :: _, [] => by simp [Jx.beqKVs]
end

instance : DecidableEq Jx := fun a b =>
  decidable_of_iff (Jx.beq a b = true) (Jx.beq_iff_eq a b)

/-- An Immutable.js value as stored inside the IceCave core:
primitives pass through `Immutable.fromJS` unchanged, arrays become
`Immutable.List`, objects become `Immutable.Map` (order preserved). -/
inductive ImmVal where
  | prim (p : Prim) : ImmVal
  | list (xs : List ImmVal) : ImmVal
  | map (kvs : List (String × ImmVal)) : ImmVal
deriving Repr

mutual
/-- Boolean (structural, deep) equality on Immutable values. -/
def ImmVal.beq : ImmVal → ImmVal → Bool
  | .prim p, .prim q => p == q
  | .list xs, .list ys => ImmVal.beqList xs ys
  | .map kvs, .map lvs => ImmVal.beqKVs kvs lvs
  | _, _ => false

def ImmVal.beqList : List ImmVal → List ImmVal → Bool
  | [], [] => true
  | x :: xs, y :: ys => x.beq y && ImmVal.beqList xs ys
  | _, _ => false

def ImmVal.beqKVs : List (String × ImmVal) → List (String × ImmVal) → Bool
  | [], [] => true
  | (k, v) :: kvs, (l, w) :: lvs => k == l && v.beq w && ImmVal.beqKVs kvs lvs
  | _, _ => false
end

mutual
theorem ImmVal.immBeq_iff_eq : (a b : ImmVal) → (ImmVal.beq a b = true ↔ a = b)
  | .prim p, .prim q => by simp [ImmVal.beq]
  | .list xs, .list ys => by simp [ImmVal.beq, ImmVal.immBeqList_iff_eq xs ys]
  | .map kvs, .map lvs => by simp [ImmVal.beq, ImmVal.immBeqKVs_iff_eq kvs lvs]
  | .prim _, .list _ => by simp [ImmVal.beq]
  | .prim _, .map _ => by simp [ImmVal.beq]
  | .list _, .prim _ => by simp [ImmVal.beq]
  | .list _, .map _ => by simp [ImmVal.beq]
  | .map _, .prim _ => by simp [ImmVal.beq]
  | .map _, .list _ => by simp [ImmVal.beq]

theorem ImmVal.immBeqList_iff_eq : (xs ys : List ImmVal) →
    (ImmVal.beqList xs ys = true ↔ xs = ys)
  | [], [] => by simp [ImmVal.beqList]
  | x :: xs, y :: ys => by
      simp [ImmVal.beqList, ImmVal.immBeq_iff_eq x y, ImmVal.immBeqList_iff_eq xs ys]
  | [], _ :: _ => by simp [ImmVal.beqList]
  | _ :: _, [] => by simp [ImmVal.beqList]

theorem ImmVal.immBeqKVs_iff_eq : (kvs lvs : List (String × ImmVal)) →
    (ImmVal.beqKVs kvs lvs = true ↔ kvs = lvs)
  | [], [] => by simp [ImmVal.beqKVs]
  | (k, v) :: kvs, (l, w) :: lvs => by
      simp [ImmVal.beqKVs, ImmVal.immBeq_iff_eq v w, ImmVal.immBeqKVs_iff_eq kvs lvs, and_assoc]
  | [], _ :: _ => by simp [ImmVal.beqKVs]
  | _ :: _, [] => by simp [ImmVal.beqKVs]
end

instance : DecidableEq ImmVal := fun a b =>
  decidable_of_iff (ImmVal.beq a b = true) (ImmVal.immBeq_iff_eq a b)

mutual
/-- `Immutable.fromJS`: deep conversion of a plain JS tree to Immutable
structures (arrays to Lists, objects to Maps, primitives unchanged). -/
def Jx.toImm : Jx → ImmVal
  | .prim p => .prim p
  | .arr xs => .list (Jx.toImmList xs)
  | .obj kvs => .map (Jx.toImmKVs kvs)

def Jx.toImmList : List Jx → List ImmVal
  | [] => []
  | x :: xs => x.toImm :: Jx.toImmList xs

def Jx.toImmKVs : List (String × Jx) → List (String × ImmVal)
  | [] => []
  | (k, v) :: kvs => (k, v.toImm) :: Jx.toImmKVs kvs
end

mutual
/-- `toJS` at the value level: deep conversion of an Immutable structure
back to a plain JS tree.  (The heap-allocating version used for the
aliasing claims is defined later; this is the value it denotes.) -/
def ImmVal.toJx : ImmVal → Jx
  | .prim p => .prim p
  | .list xs => .arr (ImmVal.toJxList xs)
  | .map kvs => .obj (ImmVal.toJxKVs kvs)

def ImmVal.toJxList : List ImmVal → List Jx
  | [] => []
  | x :: xs => x.toJx :: ImmVal.toJxList xs

def ImmVal.toJxKVs : List (String × ImmVal) → List (String × Jx)
  | [] => []
  | (k, v) :: kvs => (k, v.toJx) :: ImmVal.toJxKVs kvs
end

mutual
/-- `toJS (fromJS x) = x`: converting a plain tree to Immutable form and
back is the identity. -/
theorem Jx.toImm_toJx : (j : Jx) → j.toImm.toJx = j
  | .prim _ => rfl
  | .arr xs => by
      simp only [Jx.toImm, ImmVal.toJx, Jx.toImm_toJxList xs]
  | .obj kvs => by
      simp only [Jx.toImm, ImmVal.toJx, Jx.toImm_toJxKVs kvs]

theorem Jx.toImm_toJxList : (xs : List Jx) → ImmVal.toJxList (Jx.toImmList xs) = xs
  | [] => rfl
  | x :: xs => by
      simp only [Jx.toImmList, ImmVal.toJxList, Jx.toImm_toJx x, Jx.toImm_toJxList xs]

theorem Jx.toImm_toJxKVs : (kvs : List (String × Jx)) →
    ImmVal.toJxKVs (Jx.toImmKVs kvs) = kvs
  | [] => rfl
  | (k, v) :: kvs => by
      simp only [Jx.toImmKVs, ImmVal.toJxKVs, Jx.toImm_toJx v, Jx.toImm_toJxKVs kvs]
end

mutual
/-- `fromJS (toJS m) = m`: the two conversions are mutually inverse. -/
theorem ImmVal.toJx_toImm : (m : ImmVal) → m.toJx.toImm = m
  | .prim _ => rfl
  | .list xs => by
      simp only [ImmVal.toJx, Jx.toImm, ImmVal.toJx_toImmList xs]
  | .map kvs => by
      simp only [ImmVal.toJx, Jx.toImm, ImmVal.toJx_toImmKVs kvs]

theorem ImmVal.toJx_toImmList : (xs : List ImmVal) →
    Jx.toImmList (ImmVal.toJxList xs) = xs
  | [] => rfl
  | x :: xs => by
      simp only [ImmVal.toJxList, Jx.toImmList, ImmVal.toJx_toImm x,
        ImmVal.toJx_toImmList xs]

theorem ImmVal.toJx_toImmKVs : (kvs : List (String × ImmVal)) →
    Jx.toImmKVs (ImmVal.toJxKVs kvs) = kvs
  | [] => rfl
  | (k, v) :: kvs => by
      simp only [ImmVal.toJxKVs, Jx.toImmKVs, ImmVal.toJx_toImm v,
        ImmVal.toJx_toImmKVs kvs]
end

theorem Jx.toImmList_eq_map (xs : List Jx) : Jx.toImmList xs = xs.map Jx.toImm := by
  induction xs with
  | nil => rfl
  | cons x xs ih => simp [Jx.toImmList, ih]

theorem ImmVal.toJxList_eq_map (xs : List ImmVal) :
    ImmVal.toJxList xs = xs.map ImmVal.toJx := by
  induction xs with
  | nil => rfl
  | cons x xs ih => simp [ImmVal.toJxList, ih]

/-!
## The store operations (value level)

`core : List ImmVal` is the Immutable.js `List` held in the closure variable
`core` of `src/icecave.js`.  Each operation below is the body of the
corresponding closure, with the Immutable.js `List` method it calls spelled
out per the library's documented semantics (see the header comment).
`unpack item = item.toJS ? item.toJS() : item` deep-converts Immutable
structures and passes primitives (including `undefined`) through; at the
value level this is exactly `ImmVal.toJx`.
-/

namespace IceCave

/-- Immutable.js index resolution (`wrapIndex`): a negative index counts
back from the end. -/
def wrapIndex (n : Nat) (i : Int) : Int :=
  if i < 0 then (n : Int) + i else i

/-- `core.get(index)`: returns the element at the resolved index, or
`undefined` when the resolved index is outside `0..size-1`. -/
def coreGet (core : List ImmVal) (i : Int) : ImmVal :=
  let w := wrapIndex core.length i
  if 0 ≤ w then core.getD w.toNat (.prim .undefined) else .prim .undefined

/-- `get(index)` from `src/icecave.js` line 164:
`(index) => unpack(core.get(index))`. -/
def get (core : List ImmVal) (i : Int) : Jx :=
  (coreGet core i).toJx

/-- `push(val)` from `src/icecave.js` lines 93-96:
`core = core.push(Immutable.fromJS(val)); return core.size - 1`.
Returns the updated core together with the returned index. -/
def push (core : List ImmVal) (v : Jx) : List ImmVal × Nat :=
  (core ++ [v.toImm], core.length)

/-- `remove(index)` from `src/icecave.js` lines 117-119:
`core = core.delete(index)`.  Immutable.js `List.remove` is
`!this.has(index) ? this : this.splice(index, 1)`: the wrapped index is
deleted when it resolves inside `0..size-1` and the call is a no-op
otherwise. -/
def remove (core : List ImmVal) (i : Int) : List ImmVal :=
  let w := wrapIndex core.length i
  if 0 ≤ w ∧ w < (core.length : Int) then core.eraseIdx w.toNat else core

/-- `set(index, val)` from `src/icecave.js` lines 141-143:
`core = core.set(index, Immutable.fromJS(val))`.  Immutable.js
`List.set` (`updateList`): an index resolving inside the list replaces
that slot; an index resolving at or above `size` grows the list to
`index + 1`, leaving the skipped slots `undefined`; an index resolving
below `0` grows the list at the front and stores the value at slot 0. -/
def set (core : List ImmVal) (i : Int) (v : Jx) : List ImmVal :=
  let n := core.length
  let w := wrapIndex n i
  if w < 0 then
    v.toImm :: List.replicate (w.natAbs - 1) (.prim .undefined) ++ core
  else if w < (n : Int) then
    core.set w.toNat v.toImm
  else
    core ++ List.replicate (w.toNat - n) (.prim .undefined) ++ [v.toImm]

/-- `find(fn)` from `src/icecave.js` line 188:
`(fn) => unpack(core.find((item) => fn(unpack(item))))`.  The predicate is
applied to the unpacked (plain) form of each item; `core.find` returns the
first match or `undefined`, which `unpack` passes through. -/
def find (core : List ImmVal) (p : Jx → Bool) : Jx :=
  match core.find? (fun m => p m.toJx) with
  | some m => m.toJx
  | none => .prim .undefined

/-- `filter(fn)` from `src/icecave.js` line 212:
`(fn) => unpack(core.filter((item) => fn(unpack(item))))`.  `core.filter`
keeps the matching items in order; unpacking the resulting `List` yields a
plain array of plain values. -/
def filter (core : List ImmVal) (p : Jx → Bool) : Jx :=
  .arr ((core.filter (fun m => p m.toJx)).map ImmVal.toJx)

/-- `first()` from `src/icecave.js` line 233: `() => unpack(core.first())`.
`core.first()` is the element at index 0, or `undefined` when empty. -/
def first (core : List ImmVal) : Jx :=
  (core.headD (.prim .undefined)).toJx

/-- `last()` from `src/icecave.js` line 254: `() => unpack(core.last())`.
`core.last()` is the element at index `size - 1`, or `undefined` when
empty. -/
def last (core : List ImmVal) : Jx :=
  ((core.getLast?).getD (.prim .undefined)).toJx

end IceCave

namespace IceCave

/-! ### Basic lemmas about index resolution and `get` -/

theorem wrapIndex_of_nonneg {n : Nat} {i : Int} (h : 0 ≤ i) : wrapIndex n i = i := by
  simp [wrapIndex]
  omega

theorem coreGet_in_range (core : List ImmVal) (i : Int) (h0 : 0 ≤ i) :
    coreGet core i = core.getD i.toNat (.prim .undefined) := by
  simp [coreGet, wrapIndex_of_nonneg h0, h0]

theorem coreGet_ge (core : List ImmVal) (i : Int) (h : (core.length : Int) ≤ i) :
    coreGet core i = .prim .undefined := by
  have h0 : 0 ≤ i := le_trans (by positivity) h
  have hlen : core.length ≤ i.toNat := by omega
  simp [coreGet, wrapIndex_of_nonneg h0, h0, List.getD_eq_getElem?_getD,
    List.getElem?_eq_none hlen]

theorem coreGet_lt_neg (core : List ImmVal) (i : Int)
    (h : i < -(core.length : Int)) :
    coreGet core i = .prim .undefined := by
  have hw : wrapIndex core.length i = (core.length : Int) + i := by
    simp [wrapIndex]
    omega
  have : ¬ (0 ≤ (core.length : Int) + i) := by omega
  simp [coreGet, hw, this]

theorem coreGet_neg_wrap (core : List ImmVal) (i : Int)
    (h0 : -(core.length : Int) ≤ i) (h1 : i < 0) :
    coreGet core i = coreGet core (i + core.length) := by
  have hw : wrapIndex core.length i = (core.length : Int) + i := by
    simp [wrapIndex]
    omega
  have hw2 : wrapIndex core.length (i + core.length) = i + core.length := by
    apply wrapIndex_of_nonneg
    omega
  simp only [coreGet, hw, hw2]
  norm_num [add_comm]

theorem coreGet_getElem (core : List ImmVal) (k : Nat) (h : k < core.length) :
    coreGet core (k : Int) = core[k] := by
  rw [coreGet_in_range core k (by positivity)]
  simp [List.getD_eq_getElem?_getD, List.getElem?_eq_getElem h]

end IceCave

namespace IceCave

/-! ### Claim C5: push postcondition -/

/-- The store contents after a sequence of pushes starting from `s`. -/
def pushAll (s : List ImmVal) (vs : List Jx) : List ImmVal :=
  vs.foldl (fun c w => (push c w).1) s

theorem pushAll_nil (s : List ImmVal) : pushAll s [] = s := rfl

theorem pushAll_cons (s : List ImmVal) (v : Jx) (vs : List Jx) :
    pushAll s (v :: vs) = pushAll (s ++ [v.toImm]) vs := rfl

theorem pushAll_length (vs : List Jx) (s : List ImmVal) :
    (pushAll s vs).length = s.length + vs.length := by
  induction vs generalizing s with
  | nil => simp [pushAll_nil]
  | cons v vs ih => rw [pushAll_cons, ih]; simp; omega

theorem get_concat (core : List ImmVal) (m : ImmVal) :
    get (core ++ [m]) (core.length : Int) = m.toJx := by
  unfold get
  rw [coreGet_getElem (core ++ [m]) core.length (by simp)]
  rw [List.getElem_concat_length core m core.length rfl]

/-- C5: after any sequence of prior pushes into an initially empty store,
`push v` returns an index equal to the number of prior pushes (the new
size minus one), `v` becomes the last element, and `get` of the returned
index immediately afterwards returns a value deep-equal to `v`. -/
theorem push_index_and_get (vs : List Jx) (v : Jx) :
    (push (pushAll [] vs) v).2 = vs.length ∧
    (push (pushAll [] vs) v).2 = (push (pushAll [] vs) v).1.length - 1 ∧
    last (push (pushAll [] vs) v).1 = v ∧
    get (push (pushAll [] vs) v).1 (((push (pushAll [] vs) v).2 : Nat) : Int) = v := by
  have hlen : (pushAll [] vs).length = vs.length := by
    simpa using pushAll_length vs []
  refine ⟨by simp [push, hlen], by simp [push], ?_, ?_⟩
  · unfold last push
    simp [List.getLast?_concat, Jx.toImm_toJx]
  · show get ((pushAll [] vs) ++ [v.toImm]) (((pushAll [] vs).length : Nat) : Int) = v
    rw [get_concat, Jx.toImm_toJx]

/-! ### Claim C7: predicate queries -/

/-- `find?` returns the entry at the lowest index satisfying the
predicate. -/
theorem find?_of_min {α : Type} (p : α → Bool) :
    (l : List α) → (i : Nat) → (hi : i < l.length) →
    p (l.get ⟨i, hi⟩) = true →
    (∀ (j : Nat) (hj : j < l.length), j < i → p (l.get ⟨j, hj⟩) = false) →
    l.find? p = some (l.get ⟨i, hi⟩)
  | x :: xs, 0, _, hp, _ => by
      rw [List.find?_cons_of_pos xs (by simpa using hp)]
      simp
  | x :: xs, i + 1, hi, hp, hmin => by
      have hx : p x = false := by simpa using hmin 0 (by simp) (by omega)
      rw [List.find?_cons_of_neg xs (by simp [hx])]
      have := find?_of_min p xs i (by simpa using hi) (by simpa using hp)
        (fun j hj hlt => by simpa using hmin (j + 1) (by simpa using hj) (by omega))
      simpa using this

/-- C7: `find p` returns the plain form of the element with the lowest
index whose plain form satisfies `p`, and `filter p` returns exactly the
plain forms of the elements satisfying `p`, in their original order. -/
theorem find_filter_correct (core : List ImmVal) (p : Jx → Bool) :
    (∀ (i : Nat) (hi : i < (core.map ImmVal.toJx).length),
      p ((core.map ImmVal.toJx).get ⟨i, hi⟩) = true →
      (∀ (j : Nat) (hj : j < (core.map ImmVal.toJx).length), j < i →
        p ((core.map ImmVal.toJx).get ⟨j, hj⟩) = false) →
      find core p = (core.map ImmVal.toJx).get ⟨i, hi⟩) ∧
    filter core p = Jx.arr ((core.map ImmVal.toJx).filter p) := by
  constructor
  · intro i hi hp hmin
    have hfind := find?_of_min p (core.map ImmVal.toJx) i hi hp hmin
    rw [List.find?_map] at hfind
    simp only [Function.comp_def] at hfind
    unfold find
    split
    · next m hm =>
        rw [hm] at hfind
        simpa using hfind
    · next hm =>
        rw [hm] at hfind
        simp at hfind
  · unfold filter
    rw [List.filter_map]
    rfl

end IceCave

namespace IceCave

/-! ### Claim C2: absent-value handling

The claim as frozen states that `get(index)` returns the `undefined`
sentinel for every index outside `0..size-1`.  Immutable.js `List.get`
resolves negative indices from the end of the list (`s.get(-1)` is the
last item), so a negative in-range-after-wrapping index returns an
element, not the sentinel. -/

/-- C2 counterexample: on a store of size 1, the index `-1` is outside
`0..size-1`, yet `get(-1)` returns the stored record `{a: 1}`, not the
`undefined` sentinel. -/
theorem get_neg_one_returns_record :
    ((-1 : Int) < 0 ∨ (1 : Int) ≤ (-1 : Int)) ∧
    get [ImmVal.map [("a", ImmVal.prim (.int 1))]] (-1) ≠ Jx.prim .undefined := by
  decide

/-- C2 (amended): `get(i)` returns the `undefined` sentinel exactly when
the resolved index is out of range, i.e. when `i ≥ size` or `i < -size`;
a negative `i` with `-size ≤ i < 0` resolves to `i + size`.  `find` with
a predicate matching nothing, and `first`/`last` on an empty store,
return the `undefined` sentinel.  (All four operations are total: no
call fails.) -/
theorem absent_value_sentinel (core : List ImmVal) (p : Jx → Bool) :
    (∀ i : Int, ((core.length : Int) ≤ i ∨ i < -(core.length : Int)) →
      get core i = Jx.prim .undefined) ∧
    (∀ i : Int, -(core.length : Int) ≤ i → i < 0 →
      get core i = get core (i + core.length)) ∧
    ((∀ m ∈ core, p m.toJx = false) → find core p = Jx.prim .undefined) ∧
    (core = [] → first core = Jx.prim .undefined ∧ last core = Jx.prim .undefined) := by
  refine ⟨?_, ?_, ?_, ?_⟩
  · intro i hi
    unfold get
    rcases hi with hi | hi
    · rw [coreGet_ge core i hi]; rfl
    · rw [coreGet_lt_neg core i hi]; rfl
  · intro i h0 h1
    unfold get
    rw [coreGet_neg_wrap core i h0 h1]
  · intro hnone
    unfold find
    have : core.find? (fun m => p m.toJx) = none := by
      rw [List.find?_eq_none]
      intro m hm
      simp [hnone m hm]
    rw [this]
  · intro hcore
    subst hcore
    constructor <;> rfl

end IceCave

namespace IceCave

/-! ### Claim C3: `set` semantics

The claim as frozen states that `set(k, v)` with `k` outside `0..n-1`
leaves the sequence unchanged.  Immutable.js `List.set` instead grows
the list when the resolved index is at or above its size (documented:
`List().set(50000, 'value').size === 50001`). -/

/-- C3 counterexample: on an empty store (`n = 0`), `set(2, {a: 1})`
is claimed to be a no-op, but the resulting sequence has size 3. -/
theorem set_beyond_size_grows :
    ¬ (set [] 2 (Jx.obj [("a", Jx.prim (.int 1))]) = []) ∧
    (set [] 2 (Jx.obj [("a", Jx.prim (.int 1))])).length = 3 := by
  decide

/-- C3 (amended): `set(k, v)` with `0 ≤ k < n` replaces only the element
at index `k` (its `get` afterwards returns `v`, every other in-range
index is unchanged, the size is unchanged).  `set(k, v)` with `k ≥ n`
instead grows the sequence to size `k + 1`: `v` lands at index `k`, the
previous elements keep their indices, and the skipped slots
`n..k-1` read back as the `undefined` sentinel.  A negative `k` with
`-n ≤ k < 0` acts like `set(k + n, v)`. -/
theorem set_semantics (core : List ImmVal) (k : Int) (v : Jx) :
    (0 ≤ k → k < (core.length : Int) →
      (set core k v).length = core.length ∧
      get (set core k v) k = v ∧
      (∀ j : Int, 0 ≤ j → j < (core.length : Int) → j ≠ k →
        get (set core k v) j = get core j)) ∧
    ((core.length : Int) ≤ k →
      (set core k v).length = k.toNat + 1 ∧
      get (set core k v) k = v ∧
      (∀ j : Int, 0 ≤ j → j < (core.length : Int) →
        get (set core k v) j = get core j) ∧
      (∀ j : Int, (core.length : Int) ≤ j → j < k →
        get (set core k v) j = Jx.prim .undefined)) ∧
    (-(core.length : Int) ≤ k → k < 0 →
      set core k v = set core (k + core.length) v) := by
  refine ⟨?_, ?_, ?_⟩
  · intro h0 hlt
    have hset : set core k v = core.set k.toNat v.toImm := by
      simp only [set, wrapIndex_of_nonneg h0]
      rw [if_neg (by omega), if_pos hlt]
    refine ⟨by simp [hset], ?_, ?_⟩
    · unfold get
      rw [hset, coreGet_in_range _ k h0]
      have hk : k.toNat < (core.set k.toNat v.toImm).length := by
        simp
        omega
      rw [List.getD_eq_getElem?_getD, List.getElem?_eq_getElem hk,
        List.getElem_set_self hk]
      simp [Jx.toImm_toJx]
    · intro j hj0 hjlt hne
      unfold get
      rw [hset, coreGet_in_range _ j hj0, coreGet_in_range _ j hj0]
      have hjn : j.toNat < core.length := by omega
      have hjs : j.toNat < (core.set k.toNat v.toImm).length := by simp; omega
      rw [List.getD_eq_getElem?_getD, List.getElem?_eq_getElem hjs,
        List.getD_eq_getElem?_getD, List.getElem?_eq_getElem hjn,
        List.getElem_set_ne (by omega) hjs]
  · intro hge
    have h0 : 0 ≤ k := le_trans (by positivity) hge
    have hset : set core k v =
        core ++ List.replicate (k.toNat - core.length) (.prim .undefined) ++ [v.toImm] := by
      simp only [set, wrapIndex_of_nonneg h0]
      rw [if_neg (by omega), if_neg (by omega)]
    have hlen : (set core k v).length = k.toNat + 1 := by
      rw [hset]
      simp
      omega
    refine ⟨hlen, ?_, ?_, ?_⟩
    · unfold get
      rw [coreGet_in_range _ k h0, hset]
      have hfront : (core ++ List.replicate (k.toNat - core.length)
          (ImmVal.prim .undefined)).length = k.toNat := by
        simp
        omega
      rw [List.getD_eq_getElem?_getD,
        List.getElem?_append_right (le_of_eq hfront)]
      simp [hfront, Jx.toImm_toJx]
    · intro j hj0 hjlt
      unfold get
      rw [coreGet_in_range _ j hj0, coreGet_in_range _ j hj0, hset]
      have hjn : j.toNat < core.length := by omega
      rw [List.getD_eq_getElem?_getD, List.getD_eq_getElem?_getD,
        List.getElem?_append_left (by simp; omega),
        List.getElem?_append_left hjn]
    · intro j hjge hjlt
      unfold get
      have hj0 : 0 ≤ j := le_trans (by positivity) hjge
      rw [coreGet_in_range _ j hj0, hset]
      have hmid : j.toNat - core.length < k.toNat - core.length := by omega
      rw [List.getD_eq_getElem?_getD,
        List.getElem?_append_left (by simp; omega),
        List.getElem?_append_right (by omega)]
      rw [List.getElem?_replicate]
      simp only [if_pos hmid]
      rfl
  · intro hge hlt
    have hw : wrapIndex core.length k = (core.length : Int) + k := by
      simp [wrapIndex]
      omega
    have hw2 : wrapIndex core.length (k + core.length) = k + core.length := by
      apply wrapIndex_of_nonneg
      omega
    simp only [set, hw, hw2]
    norm_num [add_comm]

end IceCave

namespace IceCave

/-! ### Claim C6: `remove` semantics

The claim as frozen states that `remove(k)` with `k` outside `0..n-1`
leaves the sequence unchanged.  Immutable.js `List.remove` resolves
negative indices from the end (`v.delete(-1)` deletes the last item), so
only indices resolving outside `0..n-1` after wrapping are no-ops. -/

/-- C6 counterexample: on a store of size 1, the index `-1` is outside
`0..n-1`, yet `remove(-1)` deletes the last (only) element instead of
leaving the sequence unchanged. -/
theorem remove_neg_one_deletes :
    remove [ImmVal.map [("a", ImmVal.prim (.int 1))]] (-1) = [] ∧
    ((-1 : Int) < 0 ∨ (1 : Int) ≤ (-1 : Int)) ∧
    ¬ (([] : List ImmVal) = [ImmVal.map [("a", ImmVal.prim (.int 1))]]) := by
  decide

/-- C6 (amended): `remove(k)` with `0 ≤ k < n` deletes the element at
`k` and shifts every element formerly at `k+1..n-1` down one position,
making the size `n-1`; `remove(k)` with `k ≥ n` or `k < -n` leaves the
sequence unchanged; a negative `k` with `-n ≤ k < 0` acts like
`remove(k + n)`. -/
theorem remove_semantics (core : List ImmVal) (k : Int) :
    (0 ≤ k → k < (core.length : Int) →
      (remove core k).length = core.length - 1 ∧
      (∀ j : Int, 0 ≤ j → j < k →
        get (remove core k) j = get core j) ∧
      (∀ j : Int, k ≤ j → j < (core.length : Int) - 1 →
        get (remove core k) j = get core (j + 1))) ∧
    (((core.length : Int) ≤ k ∨ k < -(core.length : Int)) → remove core k = core) ∧
    (-(core.length : Int) ≤ k → k < 0 →
      remove core k = remove core (k + core.length)) := by
  refine ⟨?_, ?_, ?_⟩
  · intro h0 hlt
    have hrem : remove core k = core.eraseIdx k.toNat := by
      simp only [remove, wrapIndex_of_nonneg h0]
      rw [if_pos ⟨h0, hlt⟩]
    have hlen : (core.eraseIdx k.toNat).length = core.length - 1 := by
      rw [List.length_eraseIdx, if_pos (by omega)]
    refine ⟨by rw [hrem, hlen], ?_, ?_⟩
    · intro j hj0 hjlt
      unfold get
      rw [hrem, coreGet_in_range _ j hj0, coreGet_in_range _ j hj0]
      have hje : j.toNat < (core.eraseIdx k.toNat).length := by omega
      have hjc : j.toNat < core.length := by omega
      rw [List.getD_eq_getElem?_getD, List.getElem?_eq_getElem hje,
        List.getD_eq_getElem?_getD, List.getElem?_eq_getElem hjc,
        List.getElem_eraseIdx_of_lt core k.toNat j.toNat hje (by omega)]
    · intro j hjge hjlt
      have hj0 : 0 ≤ j := le_trans h0 hjge
      unfold get
      rw [hrem, coreGet_in_range _ j hj0, coreGet_in_range _ (j + 1) (by omega)]
      have hje : j.toNat < (core.eraseIdx k.toNat).length := by omega
      have hjc : (j + 1).toNat < core.length := by omega
      rw [List.getD_eq_getElem?_getD, List.getElem?_eq_getElem hje,
        List.getD_eq_getElem?_getD, List.getElem?_eq_getElem hjc,
        List.getElem_eraseIdx_of_ge core k.toNat j.toNat hje (by omega)]
      have hidx : (j + 1).toNat = j.toNat + 1 := by omega
      simp only [hidx]
  · intro h
    rcases h with h | h
    · have h0 : 0 ≤ k := le_trans (by positivity) h
      simp only [remove, wrapIndex_of_nonneg h0]
      rw [if_neg (by omega)]
    · have hw : wrapIndex core.length k = (core.length : Int) + k := by
        simp [wrapIndex]
        omega
      simp only [remove, hw]
      rw [if_neg (by omega)]
  · intro hge hlt
    have hw : wrapIndex core.length k = (core.length : Int) + k := by
      simp [wrapIndex]
      omega
    have hw2 : wrapIndex core.length (k + core.length) = k + core.length := by
      apply wrapIndex_of_nonneg
      omega
    simp only [remove, hw, hw2]
    norm_num [add_comm]

end IceCave

namespace IceCave

/-! ### Claim C4: dense-index invariant

The store state only ever changes by one of three assignments to `core`:
`core.push(...)`, `core.delete(...)`, `core.set(...)`.  `Step` is one such
mutation with arbitrary arguments; `Reach` is its reflexive-transitive
closure.  In this embedding the sequence is a Lean list, so indices are
dense by construction; the refutable content of the claim is that every
index `0..size-1` holds a stored Record.  `set` with an index resolving at
or above the size grows the list and leaves the skipped slots `undefined`,
which is not a Record. -/

/-- One mutation of the store core by `push`, `remove`, or `set`, with
arbitrary arguments. -/
inductive Step : List ImmVal → List ImmVal → Prop
  | push (core : List ImmVal) (v : Jx) : Step core (IceCave.push core v).1
  | remove (core : List ImmVal) (i : Int) : Step core (IceCave.remove core i)
  | set (core : List ImmVal) (i : Int) (v : Jx) : Step core (IceCave.set core i v)

/-- States reachable by any sequence of mutations. -/
def Reach : List ImmVal → List ImmVal → Prop :=
  Relation.ReflTransGen Step

/-- C4 counterexample: from the empty sequence, the single operation
`set(1, {a: 1})` reaches a state of size 2 whose index 0 — inside
`0..size-1` — holds the `undefined` hole left by the growing `set`, not
a stored Record. -/
theorem reachable_state_with_hole :
    Reach [] [ImmVal.prim .undefined, ImmVal.map [("a", ImmVal.prim (.int 1))]] ∧
    (0 < [ImmVal.prim .undefined, ImmVal.map [("a", ImmVal.prim (.int 1))]].length ∧
      get [ImmVal.prim .undefined, ImmVal.map [("a", ImmVal.prim (.int 1))]] 0 =
        Jx.prim .undefined) := by
  constructor
  · have hstep := Step.set [] 1 (Jx.obj [("a", Jx.prim (.int 1))])
    have heq : IceCave.set [] 1 (Jx.obj [("a", Jx.prim (.int 1))]) =
        [ImmVal.prim .undefined, ImmVal.map [("a", ImmVal.prim (.int 1))]] := by decide
    rw [heq] at hstep
    exact Relation.ReflTransGen.single hstep
  · exact ⟨by decide, by decide⟩

/-- A restricted mutation: `push` of a defined value, `remove` with any
index, and `set` of a defined value at an index resolving inside
`0..size-1`. -/
inductive StepR : List ImmVal → List ImmVal → Prop
  | push (core : List ImmVal) (v : Jx) : v ≠ Jx.prim .undefined →
      StepR core (IceCave.push core v).1
  | remove (core : List ImmVal) (i : Int) : StepR core (IceCave.remove core i)
  | set (core : List ImmVal) (i : Int) (v : Jx) :
      0 ≤ wrapIndex core.length i → wrapIndex core.length i < (core.length : Int) →
      v ≠ Jx.prim .undefined → StepR core (IceCave.set core i v)

/-- States reachable by restricted mutations. -/
def ReachR : List ImmVal → List ImmVal → Prop :=
  Relation.ReflTransGen StepR

theorem Jx.toImm_eq_undef_iff (v : Jx) :
    v.toImm = ImmVal.prim .undefined ↔ v = Jx.prim .undefined := by
  cases v <;> simp [Jx.toImm]

/-- A restricted mutation preserves "every entry is a stored Record
(not the `undefined` hole)". -/
theorem StepR.preserves_defined {s t : List ImmVal} (hst : StepR s t)
    (hs : ∀ m ∈ s, m ≠ ImmVal.prim .undefined) :
    ∀ m ∈ t, m ≠ ImmVal.prim .undefined := by
  cases hst with
  | push v hv =>
      intro m hm
      simp only [IceCave.push, List.mem_append, List.mem_singleton] at hm
      rcases hm with hm | hm
      · exact hs m hm
      · subst hm
        simpa [Jx.toImm_eq_undef_iff] using hv
  | remove i =>
      intro m hm
      simp only [IceCave.remove] at hm
      split at hm
      · exact hs m (List.mem_of_mem_eraseIdx hm)
      · exact hs m hm
  | set i v h0 hlt hv =>
      intro m hm
      have hset : IceCave.set s i v = s.set (wrapIndex s.length i).toNat v.toImm := by
        simp only [IceCave.set]
        rw [if_neg (by omega), if_pos hlt]
      rw [hset] at hm
      rcases List.mem_or_eq_of_mem_set hm with hm | hm
      · exact hs m hm
      · subst hm
        simpa [Jx.toImm_eq_undef_iff] using hv

/-- C4 (amended): in every state reachable from a store whose entries are
all stored Records (in particular an empty or JSON-loaded one) by pushes
of defined values, removes with arbitrary indices, and sets of defined
values at indices resolving inside `0..size-1`, every index `0..size-1`
still holds a stored Record.  (Unrestricted `set` breaks this: an index
resolving at or above the size grows the sequence and fills the skipped
slots with `undefined`.) -/
theorem reachable_all_records {s t : List ImmVal} (hreach : ReachR s t)
    (hs : ∀ m ∈ s, m ≠ ImmVal.prim .undefined) :
    ∀ m ∈ t, m ≠ ImmVal.prim .undefined := by
  induction hreach with
  | refl => exact hs
  | tail _ hstep ih => exact hstep.preserves_defined ih

end IceCave

namespace IceCave

/-! ### Concrete instantiations of the hypothesis-carrying theorems -/

theorem absent_value_sentinel_witness :
    get [ImmVal.prim (.int 5)] 3 = Jx.prim .undefined ∧
    get [ImmVal.prim (.int 5)] (-1) = get [ImmVal.prim (.int 5)] 0 ∧
    find [ImmVal.prim (.int 5)] (fun _ => false) = Jx.prim .undefined ∧
    first ([] : List ImmVal) = Jx.prim .undefined := by
  have h := absent_value_sentinel [ImmVal.prim (.int 5)] (fun _ => false)
  have h0 := absent_value_sentinel ([] : List ImmVal) (fun _ => false)
  refine ⟨h.1 3 (Or.inl (by decide)), ?_, h.2.2.1 (fun m _ => rfl), (h0.2.2.2 rfl).1⟩
  have h2 := h.2.1 (-1) (by decide) (by decide)
  simpa using h2

theorem set_semantics_witness :
    (set [ImmVal.prim (.int 7), ImmVal.prim (.int 8)] 0 (Jx.prim (.int 9))).length = 2 ∧
    get (set [ImmVal.prim (.int 7), ImmVal.prim (.int 8)] 0 (Jx.prim (.int 9))) 0 =
      Jx.prim (.int 9) ∧
    get (set [ImmVal.prim (.int 7), ImmVal.prim (.int 8)] 0 (Jx.prim (.int 9))) 1 =
      get [ImmVal.prim (.int 7), ImmVal.prim (.int 8)] 1 ∧
    get (set [ImmVal.prim (.int 7), ImmVal.prim (.int 8)] 3 (Jx.prim (.int 9))) 3 =
      Jx.prim (.int 9) ∧
    get (set [ImmVal.prim (.int 7), ImmVal.prim (.int 8)] 3 (Jx.prim (.int 9))) 2 =
      Jx.prim .undefined := by
  have h := set_semantics [ImmVal.prim (.int 7), ImmVal.prim (.int 8)] 0 (Jx.prim (.int 9))
  have hg := set_semantics [ImmVal.prim (.int 7), ImmVal.prim (.int 8)] 3 (Jx.prim (.int 9))
  have h1 := h.1 (by decide) (by decide)
  have hg1 := hg.2.1 (by decide)
  exact ⟨h1.1, h1.2.1, h1.2.2 1 (by decide) (by decide) (by decide),
    hg1.2.1, hg1.2.2.2 2 (by decide) (by decide)⟩

theorem remove_semantics_witness :
    (remove [ImmVal.prim (.int 7), ImmVal.prim (.int 8), ImmVal.prim (.int 9)] 1).length = 2 ∧
    get (remove [ImmVal.prim (.int 7), ImmVal.prim (.int 8), ImmVal.prim (.int 9)] 1) 0 =
      get [ImmVal.prim (.int 7), ImmVal.prim (.int 8), ImmVal.prim (.int 9)] 0 ∧
    get (remove [ImmVal.prim (.int 7), ImmVal.prim (.int 8), ImmVal.prim (.int 9)] 1) 1 =
      get [ImmVal.prim (.int 7), ImmVal.prim (.int 8), ImmVal.prim (.int 9)] 2 ∧
    remove [ImmVal.prim (.int 7), ImmVal.prim (.int 8), ImmVal.prim (.int 9)] 5 =
      [ImmVal.prim (.int 7), ImmVal.prim (.int 8), ImmVal.prim (.int 9)] := by
  have h := remove_semantics [ImmVal.prim (.int 7), ImmVal.prim (.int 8), ImmVal.prim (.int 9)] 1
  have h5 := remove_semantics [ImmVal.prim (.int 7), ImmVal.prim (.int 8), ImmVal.prim (.int 9)] 5
  have h1 := h.1 (by decide) (by decide)
  refine ⟨h1.1, h1.2.1 0 (by decide) (by decide), ?_, h5.2.1 (Or.inl (by decide))⟩
  have h2 := h1.2.2 1 (by decide) (by decide)
  simpa using h2

theorem reachable_all_records_witness :
    ImmVal.map [("a", ImmVal.prim (.int 1))] ≠ ImmVal.prim .undefined := by
  have hstep := StepR.push [] (Jx.obj [("a", Jx.prim (.int 1))]) (by decide)
  have heq : (IceCave.push [] (Jx.obj [("a", Jx.prim (.int 1))])).1 =
      [ImmVal.map [("a", ImmVal.prim (.int 1))]] := by decide
  rw [heq] at hstep
  have hreach : ReachR [] [ImmVal.map [("a", ImmVal.prim (.int 1))]] :=
    Relation.ReflTransGen.single hstep
  exact reachable_all_records hreach (fun m hm => by simp at hm) _ (by simp)

theorem find_filter_correct_witness :
    find [ImmVal.prim (.int 1), ImmVal.prim (.int 2)]
      (fun j => Jx.beq j (Jx.prim (.int 2))) = Jx.prim (.int 2) ∧
    filter [ImmVal.prim (.int 1), ImmVal.prim (.int 2)]
      (fun j => Jx.beq j (Jx.prim (.int 2))) = Jx.arr [Jx.prim (.int 2)] := by
  have h := find_filter_correct [ImmVal.prim (.int 1), ImmVal.prim (.int 2)]
    (fun j => Jx.beq j (Jx.prim (.int 2)))
  constructor
  · have h1 := h.1 1 (by decide) (by decide) ?_
    · simpa using h1
    · intro j hj hlt
      interval_cases j
      rfl
  · exact h.2.trans (by decide)

end IceCave

/-!
## The persisted JSON format

`write` (`src/icecave.js` lines 260-262) serialises the store with
`JSON.stringify(core.toJS())`; construction (`lines 47-53`) loads the file
back through `require`, which parses the text as JSON.  Both directions are
modelled below over `List Char`: `Jx.strChars` is `JSON.stringify`
restricted to the integer-number fragment (floating-point decimals are out
of scope of every verified property), and `pVal`/`parseDoc` is the
corresponding `JSON.parse`.  As in `JSON.stringify`, an `undefined` array
element serialises as `null` and an `undefined` object member is dropped.
-/

def isWs (c : Char) : Bool :=
  c = ' ' || c = '\t' || c = '\n' || c = '\r'

def isDigit (c : Char) : Bool :=
  48 ≤ c.toNat && c.toNat ≤ 57

def digitChar (d : Nat) : Char := Char.ofNat (48 + d)

/-- The decimal digits of `n`, least significant first (`fuel ≥ n`). -/
def natCharsAux : Nat → Nat → List Char
  | 0, _ => []
  | f + 1, n => if n = 0 then [] else digitChar (n % 10) :: natCharsAux f (n / 10)

/-- Decimal rendering of a natural number. -/
def natChars (n : Nat) : List Char :=
  if n = 0 then ['0'] else (natCharsAux n n).reverse

/-- Decimal rendering of an integer (`JSON.stringify` of a number). -/
def intChars (n : Int) : List Char :=
  if n < 0 then '-' :: natChars n.natAbs else natChars n.natAbs

def isHex (c : Char) : Bool :=
  (48 ≤ c.toNat && c.toNat ≤ 57) || (97 ≤ c.toNat && c.toNat ≤ 102) ||
    (65 ≤ c.toNat && c.toNat ≤ 70)

def hexVal (c : Char) : Nat :=
  if c.toNat ≤ 57 then c.toNat - 48
  else if 97 ≤ c.toNat then c.toNat - 87
  else c.toNat - 55

def hexChar (d : Nat) : Char :=
  if d < 10 then digitChar d else Char.ofNat (87 + d)

/-- `JSON.stringify` escaping of one string character: `"` and `\` get a
backslash escape, the five named control characters use their short
escapes, all other control characters use `\u00XX`, everything else is
emitted as is. -/
def escChar (c : Char) : List Char :=
  if c = '"' then ['\\', '"']
  else if c = '\\' then ['\\', '\\']
  else if c = '\n' then ['\\', 'n']
  else if c = '\r' then ['\\', 'r']
  else if c = '\t' then ['\\', 't']
  else if c.toNat = 8 then ['\\', 'b']
  else if c.toNat = 12 then ['\\', 'f']
  else if c.toNat < 32 then
    '\\' :: 'u' :: '0' :: '0' :: hexChar (c.toNat / 16) :: [hexChar (c.toNat % 16)]
  else [c]

def escList : List Char → List Char
  | [] => []
  | c :: cs => escChar c ++ escList cs

/-- A JSON string literal: quotes around the escaped characters. -/
def strLit (s : String) : List Char :=
  '"' :: escList s.data ++ ['"']

/-- Comma-separated concatenation of rendered pieces. -/
def joinComma : List (List Char) → List Char
  | [] => []
  | [p] => p
  | p :: q :: ps => p ++ ',' :: joinComma (q :: ps)

mutual
/-- `JSON.stringify` of a plain value (integer-number fragment).  An
`undefined` passed here renders as `null`, which is what `JSON.stringify`
does for `undefined` array elements (the store's `write` only ever
stringifies an array at top level). -/
def Jx.strChars : Jx → List Char
  | .prim .undefined => ['n', 'u', 'l', 'l']
  | .prim .null => ['n', 'u', 'l', 'l']
  | .prim (.bool true) => ['t', 'r', 'u', 'e']
  | .prim (.bool false) => ['f', 'a', 'l', 's', 'e']
  | .prim (.int n) => intChars n
  | .prim (.str s) => strLit s
  | .arr xs => '[' :: (joinComma (Jx.strPieces xs) ++ [']'])
  | .obj kvs => '{' :: (joinComma (Jx.strPiecesKVs kvs) ++ ['}'])

def Jx.strPieces : List Jx → List (List Char)
  | [] => []
  | x :: xs => x.strChars :: Jx.strPieces xs

/-- Members of an object; a member whose value is `undefined` is dropped,
as in `JSON.stringify`. -/
def Jx.strPiecesKVs : List (String × Jx) → List (List Char)
  | [] => []
  | (k, v) :: kvs =>
    if v = .prim .undefined then Jx.strPiecesKVs kvs
    else (strLit k ++ ':' :: v.strChars) :: Jx.strPiecesKVs kvs
end

mutual
/-- A value representable in the JSON data model: no `undefined`
anywhere. -/
def Jx.isJson : Jx → Bool
  | .prim .undefined => false
  | .prim _ => true
  | .arr xs => Jx.isJsonList xs
  | .obj kvs => Jx.isJsonKVs kvs

def Jx.isJsonList : List Jx → Bool
  | [] => true
  | x :: xs => x.isJson && Jx.isJsonList xs

def Jx.isJsonKVs : List (String × Jx) → Bool
  | [] => true
  | (_, v) :: kvs => v.isJson && Jx.isJsonKVs kvs
end

/-- Skip JSON whitespace. -/
def skipWs : List Char → List Char
  | [] => []
  | c :: cs => if isWs c then skipWs cs else c :: cs

mutual
/-- Parse the body of a JSON string literal (after the opening quote),
returning the decoded characters and the input after the closing quote.
Raw control characters are rejected, as in `JSON.parse`. -/
def pStr : List Char → Option (List Char × List Char)
  | [] => none
  | c :: cs =>
    if c = '"' then some ([], cs)
    else if c = '\\' then pStrEsc cs
    else if c.toNat < 32 then none
    else (pStr cs).map (fun r => (c :: r.1, r.2))

/-- Parse the remainder of a string literal after a backslash. -/
def pStrEsc : List Char → Option (List Char × List Char)
  | [] => none
  | e :: cs2 =>
    if e = '"' then (pStr cs2).map (fun r => ('"' :: r.1, r.2))
    else if e = '\\' then (pStr cs2).map (fun r => ('\\' :: r.1, r.2))
    else if e = '/' then (pStr cs2).map (fun r => ('/' :: r.1, r.2))
    else if e = 'b' then (pStr cs2).map (fun r => (Char.ofNat 8 :: r.1, r.2))
    else if e = 'f' then (pStr cs2).map (fun r => (Char.ofNat 12 :: r.1, r.2))
    else if e = 'n' then (pStr cs2).map (fun r => ('\n' :: r.1, r.2))
    else if e = 'r' then (pStr cs2).map (fun r => ('\r' :: r.1, r.2))
    else if e = 't' then (pStr cs2).map (fun r => ('\t' :: r.1, r.2))
    else if e = 'u' then
      match cs2 with
      | h1 :: h2 :: h3 :: h4 :: cs3 =>
        if isHex h1 && isHex h2 && isHex h3 && isHex h4 then
          (pStr cs3).map (fun r =>
            (Char.ofNat (((hexVal h1 * 16 + hexVal h2) * 16 + hexVal h3) * 16 + hexVal h4)
              :: r.1, r.2))
        else none
      | _ => none
    else none
end

/-- Split off a maximal run of decimal digits. -/
def takeDigits : List Char → List Char × List Char
  | [] => ([], [])
  | c :: cs =>
    if isDigit c then
      let r := takeDigits cs
      (c :: r.1, r.2)
    else ([], c :: cs)

def digitsToNat (ds : List Char) : Nat :=
  ds.foldl (fun a c => a * 10 + (c.toNat - 48)) 0

/-- Parse a JSON natural-number literal (no redundant leading zero). -/
def pNat (cs : List Char) : Option (Nat × List Char) :=
  match takeDigits cs with
  | ([], _) => none
  | (d :: ds, r) =>
    if d = '0' ∧ ds ≠ [] then none else some (digitsToNat (d :: ds), r)

mutual
/-- Parse one JSON value (integer-number fragment), fuel-bounded. -/
def pVal : Nat → List Char → Option (Jx × List Char)
  | 0, _ => none
  | f + 1, cs =>
    match skipWs cs with
    | [] => none
    | c :: rest =>
      if isDigit c then
        match pNat (c :: rest) with
        | some (n, r) => some (.prim (.int (n : Int)), r)
        | none => none
      else
        match c, rest with
        | 'n', 'u' :: 'l' :: 'l' :: r => some (.prim .null, r)
        | 't', 'r' :: 'u' :: 'e' :: r => some (.prim (.bool true), r)
        | 'f', 'a' :: 'l' :: 's' :: 'e' :: r => some (.prim (.bool false), r)
        | '"', r =>
          match pStr r with
          | some (s, r2) => some (.prim (.str (String.mk s)), r2)
          | none => none
        | '[', r => pElems f (skipWs r)
        | '{', r => pMembers f (skipWs r)
        | '-', r =>
          match pNat r with
          | some (n, r2) => some (.prim (.int (-(n : Int))), r2)
          | none => none
        | _, _ => none

/-- Parse the elements of an array after `[` (whitespace already
skipped). -/
def pElems : Nat → List Char → Option (Jx × List Char)
  | 0, _ => none
  | f + 1, cs =>
    if cs.head? = some ']' then some (.arr [], cs.tail)
    else
      match pElemsNE f cs with
      | some (xs, r) => some (.arr xs, r)
      | none => none

/-- Parse a non-empty comma-separated element list followed by `]`. -/
def pElemsNE : Nat → List Char → Option (List Jx × List Char)
  | 0, _ => none
  | f + 1, cs =>
    match pVal f cs with
    | some (v, r) =>
      match skipWs r with
      | ',' :: r2 =>
        match pElemsNE f r2 with
        | some (vs, r3) => some (v :: vs, r3)
        | none => none
      | ']' :: r2 => some ([v], r2)
      | _ => none
    | none => none

/-- Parse the members of an object after `{` (whitespace already
skipped). -/
def pMembers : Nat → List Char → Option (Jx × List Char)
  | 0, _ => none
  | f + 1, cs =>
    if cs.head? = some '}' then some (.obj [], cs.tail)
    else
      match pMembersNE f cs with
      | some (kvs, r) => some (.obj kvs, r)
      | none => none

/-- Parse a non-empty comma-separated member list followed by `}`. -/
def pMembersNE : Nat → List Char → Option (List (String × Jx) × List Char)
  | 0, _ => none
  | f + 1, cs =>
    match skipWs cs with
    | '"' :: rest =>
      match pStr rest with
      | some (k, r) =>
        match skipWs r with
        | ':' :: r2 =>
          match pVal f r2 with
          | some (v, r3) =>
            match skipWs r3 with
            | ',' :: r4 =>
              match pMembersNE f r4 with
              | some (kvs, r5) => some ((String.mk k, v) :: kvs, r5)
              | none => none
            | '}' :: r4 => some ([(String.mk k, v)], r4)
            | _ => none
          | none => none
        | _ => none
      | none => none
    | _ => none
end

mutual
/-- Fuel sufficient to parse back the rendering of a value (established
by `fuelBound` below: `jxFuel j ≤ 2 * (j.strChars).length`). -/
def jxFuel : Jx → Nat
  | .prim _ => 1
  | .arr xs => 2 + jxFuelList xs
  | .obj kvs => 2 + jxFuelKVs kvs

def jxFuelList : List Jx → Nat
  | [] => 0
  | x :: xs => 1 + jxFuel x + jxFuelList xs

def jxFuelKVs : List (String × Jx) → Nat
  | [] => 0
  | (_, v) :: kvs => 1 + jxFuel v + jxFuelKVs kvs
end

/-- `JSON.parse` of a whole document: one value plus trailing whitespace.
The fuel `2 * |input| + 2` dominates the recursion depth of any
successful parse (each `pVal`/`pElems`/`pMembers` step consumes an input
character, and the two interleaving list steps are accounted twice). -/
def parseDoc (txt : String) : Option Jx :=
  match pVal (2 * txt.data.length + 2) txt.data with
  | some (j, rest) => if skipWs rest = [] then some j else none
  | none => none

/-!
### Round-trip lemmas: numbers
-/

/-- `true` when the input does not start with a digit (so a preceding
number literal cannot absorb it). -/
def digitBoundary : List Char → Bool
  | [] => true
  | c :: _ => !isDigit c

theorem toNat_digitChar (d : Nat) (h : d < 10) : (digitChar d).toNat = 48 + d := by
  interval_cases d <;> rfl

theorem isDigit_digitChar (d : Nat) (h : d < 10) : isDigit (digitChar d) = true := by
  interval_cases d <;> rfl

theorem natCharsAux_zero (f : Nat) : natCharsAux f 0 = [] := by
  cases f <;> simp [natCharsAux]

theorem isDigit_natCharsAux (f : Nat) : ∀ n c, c ∈ natCharsAux f n → isDigit c = true := by
  induction f with
  | zero => intro n c hc; simp [natCharsAux] at hc
  | succ f ih =>
    intro n c hc
    by_cases h0 : n = 0
    · subst h0; simp [natCharsAux] at hc
    · rw [natCharsAux, if_neg h0] at hc
      rcases List.mem_cons.mp hc with hc | hc
      · subst hc; exact isDigit_digitChar _ (Nat.mod_lt _ (by norm_num))
      · exact ih _ _ hc

theorem natCharsAux_ne_nil (f n : Nat) (h1 : 1 ≤ n) (h2 : n ≤ f) :
    natCharsAux f n ≠ [] := by
  cases f with
  | zero => omega
  | succ f => rw [natCharsAux, if_neg (by omega)]; simp

theorem getLast?_natCharsAux (f : Nat) : ∀ n, 1 ≤ n → n ≤ f →
    ∀ c, (natCharsAux f n).getLast? = some c → c ≠ '0' := by
  induction f with
  | zero => intro n h1 h2; omega
  | succ f ih =>
    intro n h1 h2 c hc
    rw [natCharsAux, if_neg (by omega)] at hc
    by_cases hq : n / 10 = 0
    · rw [hq, natCharsAux_zero] at hc
      simp only [List.getLast?_singleton, Option.some_inj] at hc
      subst hc
      have hn : n < 10 := by omega
      have : n % 10 = n := Nat.mod_eq_of_lt hn
      rw [this]
      interval_cases n <;> decide
    · have hne := natCharsAux_ne_nil f (n / 10) (by omega)
        (by have := Nat.div_lt_self (show 0 < n by omega) (show (1:Nat) < 10 by norm_num); omega)
      rcases hx : natCharsAux f (n / 10) with _ | ⟨y, ys⟩
      · exact absurd hx hne
      · rw [hx, List.getLast?_cons_cons] at hc
        rw [← hx] at hc
        exact ih (n / 10) (by omega)
          (by have := Nat.div_lt_self (show 0 < n by omega) (show (1:Nat) < 10 by norm_num); omega) c hc

theorem foldl_natCharsAux (f : Nat) : ∀ n a, n ≤ f →
    List.foldl (fun a c => a * 10 + (c.toNat - 48)) a (natCharsAux f n).reverse
      = a * 10 ^ (natCharsAux f n).length + n := by
  induction f with
  | zero => intro n a h; interval_cases n; simp [natCharsAux]
  | succ f ih =>
    intro n a h
    by_cases h0 : n = 0
    · subst h0; simp [natCharsAux]
    · rw [natCharsAux, if_neg h0]
      rw [List.reverse_cons, List.foldl_append]
      have hdiv : n / 10 ≤ f := by
        have := Nat.div_lt_self (show 0 < n by omega) (show 1 < 10 by norm_num)
        omega
      rw [ih (n / 10) a hdiv]
      simp only [List.foldl_cons, List.foldl_nil, List.length_cons]
      rw [toNat_digitChar _ (Nat.mod_lt _ (by norm_num))]
      have hmod : 48 + n % 10 - 48 = n % 10 := by omega
      rw [hmod, pow_succ]
      have := Nat.div_add_mod n 10
      ring_nf
      omega

theorem digitsToNat_natChars (n : Nat) : digitsToNat (natChars n) = n := by
  by_cases h0 : n = 0
  · subst h0; rfl
  · unfold natChars digitsToNat
    rw [if_neg h0]
    simpa using foldl_natCharsAux n n 0 le_rfl

theorem isDigit_natChars (n : Nat) : ∀ c ∈ natChars n, isDigit c = true := by
  intro c hc
  unfold natChars at hc
  split at hc
  · simp at hc; subst hc; rfl
  · exact isDigit_natCharsAux n n c (List.mem_reverse.mp hc)

theorem takeDigits_append (ds rest : List Char) (hds : ∀ c ∈ ds, isDigit c = true)
    (hrest : digitBoundary rest = true) : takeDigits (ds ++ rest) = (ds, rest) := by
  induction ds with
  | nil =>
    simp only [List.nil_append]
    cases rest with
    | nil => rfl
    | cons c cs =>
      simp only [digitBoundary, Bool.not_eq_true'] at hrest
      rw [takeDigits, if_neg (by simp [hrest])]
  | cons d ds ih =>
    rw [List.cons_append, takeDigits, if_pos (hds d (by simp))]
    rw [ih (fun c hc => hds c (by simp [hc]))]

theorem natChars_ne_nil (n : Nat) : natChars n ≠ [] := by
  unfold natChars
  split
  · simp
  · next h0 =>
    simpa using natCharsAux_ne_nil n n (by omega) le_rfl

theorem pNat_natChars (n : Nat) (rest : List Char) (hrest : digitBoundary rest = true) :
    pNat (natChars n ++ rest) = some (n, rest) := by
  rw [pNat, takeDigits_append _ _ (isDigit_natChars n) hrest]
  rcases hnc : natChars n with _ | ⟨d, ds⟩
  · exact absurd hnc (natChars_ne_nil n)
  · have hguard : ¬ (d = '0' ∧ ds ≠ []) := by
      rintro ⟨hd, hds⟩
      by_cases h0 : n = 0
      · subst h0
        simp [natChars] at hnc
        exact hds hnc.2.symm.symm
      · have hhead : (natChars n).head? = some d := by rw [hnc]; rfl
        unfold natChars at hhead
        rw [if_neg h0, List.head?_reverse] at hhead
        exact getLast?_natCharsAux n n (by omega) le_rfl d hhead hd
    simp only [hguard, if_false]
    rw [← hnc, digitsToNat_natChars]

/-!
### Round-trip lemmas: strings and whitespace
-/

theorem skipWs_cons_of_not_ws {c : Char} (cs : List Char) (h : isWs c = false) :
    skipWs (c :: cs) = c :: cs := by
  rw [skipWs, if_neg (by simp [h])]

theorem isHex_hexChar (d : Nat) (h : d < 16) : isHex (hexChar d) = true := by
  interval_cases d <;> rfl

theorem hexVal_hexChar (d : Nat) (h : d < 16) : hexVal (hexChar d) = d := by
  interval_cases d <;> rfl

theorem pStr_escList (s : List Char) (rest : List Char) :
    pStr (escList s ++ '"' :: rest) = some (s, rest) := by
  induction s with
  | nil => simp [escList, pStr]
  | cons c cs ih =>
    rw [show escList (c :: cs) = escChar c ++ escList cs from rfl, List.append_assoc]
    unfold escChar
    split_ifs with h1 h2 h3 h4 h5 h6 h7 h8
    · subst h1
      simp [pStr, pStrEsc, ih]
    · subst h2
      simp [pStr, pStrEsc, ih]
    · subst h3
      simp [pStr, pStrEsc, ih]
    · have hc : c = '\r' := h4
      subst hc
      simp [pStr, pStrEsc, ih]
    · have hc : c = '\t' := h5
      subst hc
      simp [pStr, pStrEsc, ih]
    · have hc : c = Char.ofNat 8 := by
        have := Char.ofNat_toNat c
        rw [h6] at this
        exact this.symm
      simp [pStr, pStrEsc, ih, hc]
    · have hc : c = Char.ofNat 12 := by
        have := Char.ofNat_toNat c
        rw [h7] at this
        exact this.symm
      simp [pStr, pStrEsc, ih, hc]
    · have hdiv : c.toNat / 16 < 16 := by omega
      have hmod : c.toNat % 16 < 16 := by omega
      have hval : ((hexVal '0' * 16 + hexVal '0') * 16 + hexVal (hexChar (c.toNat / 16)))
          * 16 + hexVal (hexChar (c.toNat % 16)) = c.toNat := by
        rw [hexVal_hexChar _ hdiv, hexVal_hexChar _ hmod]
        have h0 : hexVal '0' = 0 := rfl
        rw [h0]
        omega
      simp [pStr, pStrEsc, ih, isHex_hexChar _ hdiv, isHex_hexChar _ hmod,
        hval, Char.ofNat_toNat, show isHex '0' = true from rfl]
    · simp only [List.singleton_append]
      rw [pStr, if_neg h1, if_neg h2, if_neg (by omega)]
      simp [ih]

/-!
### Round-trip lemmas: leading characters and fuel
-/

theorem char_ne_of_toNat {c d : Char} (h : c.toNat ≠ d.toNat) : c ≠ d :=
  fun heq => h (by rw [heq])

theorem isDigit_facts {c : Char} (h : isDigit c = true) :
    isWs c = false ∧ c ≠ ']' ∧ c ≠ '}' := by
  have h48 : 48 ≤ c.toNat ∧ c.toNat ≤ 57 := by simpa [isDigit] using h
  have hsp : (' ' : Char).toNat = 32 := rfl
  have htb : ('\t' : Char).toNat = 9 := rfl
  have hnl : ('\n' : Char).toNat = 10 := rfl
  have hcr : ('\r' : Char).toNat = 13 := rfl
  have hrb : (']' : Char).toNat = 93 := rfl
  have hcb : ('}' : Char).toNat = 125 := rfl
  refine ⟨?_, char_ne_of_toNat (by omega), char_ne_of_toNat (by omega)⟩
  simp only [isWs, Bool.or_eq_false_iff, decide_eq_false_iff_not]
  exact ⟨⟨⟨char_ne_of_toNat (by omega), char_ne_of_toNat (by omega)⟩,
    char_ne_of_toNat (by omega)⟩, char_ne_of_toNat (by omega)⟩

/-- Every rendered value starts with a character that is not whitespace,
not `]`, and not `}`. -/
theorem strChars_head_spec (j : Jx) :
    ∃ c cs, j.strChars = c :: cs ∧ isWs c = false ∧ c ≠ ']' ∧ c ≠ '}' := by
  cases j with
  | prim p =>
    cases p with
    | undefined => refine ⟨'n', _, rfl, ?_, ?_, ?_⟩ <;> decide
    | null => refine ⟨'n', _, rfl, ?_, ?_, ?_⟩ <;> decide
    | bool b =>
      cases b with
      | true => refine ⟨'t', _, rfl, ?_, ?_, ?_⟩ <;> decide
      | false => refine ⟨'f', _, rfl, ?_, ?_, ?_⟩ <;> decide
    | int n =>
      show ∃ c cs, intChars n = c :: cs ∧ _
      unfold intChars
      by_cases hn : n < 0
      · rw [if_pos hn]
        refine ⟨'-', _, rfl, ?_, ?_, ?_⟩ <;> decide
      · rw [if_neg hn]
        rcases hnc : natChars n.natAbs with _ | ⟨d, ds⟩
        · exact absurd hnc (natChars_ne_nil _)
        · have hdig : isDigit d = true :=
            isDigit_natChars n.natAbs d (by rw [hnc]; simp)
          obtain ⟨hws, hrb, hcb⟩ := isDigit_facts hdig
          exact ⟨d, ds, rfl, hws, hrb, hcb⟩
    | str s =>
      refine ⟨'"', escList s.data ++ ['"'], ?_, by decide, by decide, by decide⟩
      show strLit s = _
      rw [strLit, List.cons_append]
  | arr xs => refine ⟨'[', _, rfl, ?_, ?_, ?_⟩ <;> decide
  | obj kvs => refine ⟨'{', _, rfl, ?_, ?_, ?_⟩ <;> decide

theorem jxFuel_pos (j : Jx) : 1 ≤ jxFuel j := by
  cases j <;> simp [jxFuel] <;> omega

theorem strChars_length_pos (j : Jx) : 1 ≤ j.strChars.length := by
  obtain ⟨c, cs, hc, -⟩ := strChars_head_spec j
  rw [hc]
  simp

mutual
/-- The fuel needed to re-parse a rendered value is at most twice the
length of the rendering. -/
theorem fuelBound : (j : Jx) → j.isJson = true → jxFuel j ≤ 2 * j.strChars.length
  | .prim p, _ => by
    have := strChars_length_pos (Jx.prim p)
    simp only [jxFuel]
    omega
  | .arr xs, hj => by
    have hxs := fuelBoundList xs (by simpa [Jx.isJson] using hj)
    simp only [jxFuel, Jx.strChars, List.length_cons, List.length_append]
    omega
  | .obj kvs, hj => by
    have hkvs := fuelBoundKVs kvs (by simpa [Jx.isJson] using hj)
    simp only [jxFuel, Jx.strChars, List.length_cons, List.length_append]
    omega

theorem fuelBoundList : (xs : List Jx) → Jx.isJsonList xs = true →
    jxFuelList xs ≤ 2 * (joinComma (Jx.strPieces xs)).length + 2
  | [], _ => by simp [jxFuelList]
  | [x], hx => by
    have hj : x.isJson = true := by
      have := hx
      simp [Jx.isJsonList] at this
      exact this
    have hb := fuelBound x hj
    simp only [jxFuelList, Jx.strPieces, joinComma]
    omega
  | x :: y :: xs, hx => by
    have hxj : x.isJson = true := by
      have := hx
      simp [Jx.isJsonList] at this
      exact this.1
    have hrest : Jx.isJsonList (y :: xs) = true := by
      have := hx
      simp [Jx.isJsonList] at this ⊢
      exact ⟨this.2.1, this.2.2⟩
    have hb := fuelBound x hxj
    have hl := fuelBoundList (y :: xs) hrest
    show jxFuelList (x :: y :: xs) ≤
      2 * (x.strChars ++ ',' :: joinComma (Jx.strPieces (y :: xs))).length + 2
    rw [List.length_append, List.length_cons]
    simp only [jxFuelList] at hl ⊢
    omega

theorem fuelBoundKVs : (kvs : List (String × Jx)) → Jx.isJsonKVs kvs = true →
    jxFuelKVs kvs ≤ 2 * (joinComma (Jx.strPiecesKVs kvs)).length + 2
  | [], _ => by simp [jxFuelKVs]
  | [(k, v)], hx => by
    have hj : v.isJson = true := by
      have := hx
      simp [Jx.isJsonKVs] at this
      exact this
    have hvu : ¬ v = Jx.prim .undefined := by
      intro hv
      rw [hv] at hj
      simp [Jx.isJson] at hj
    have hb := fuelBound v hj
    simp only [jxFuelKVs, Jx.strPiecesKVs, if_neg hvu, joinComma]
    rw [List.length_append, List.length_cons]
    omega
  | (k, v) :: kv2 :: kvs, hx => by
    have hvj : v.isJson = true := by
      have := hx
      simp [Jx.isJsonKVs] at this
      exact this.1
    have hrest : Jx.isJsonKVs (kv2 :: kvs) = true := by
      have := hx
      simp [Jx.isJsonKVs] at this ⊢
      exact ⟨this.2.1, this.2.2⟩
    have hvu : ¬ v = Jx.prim .undefined := by
      intro hv
      rw [hv] at hvj
      simp [Jx.isJson] at hvj
    have hb := fuelBound v hvj
    have hl := fuelBoundKVs (kv2 :: kvs) hrest
    obtain ⟨k2, v2⟩ := kv2
    have hv2j : v2.isJson = true := by
      simp [Jx.isJsonKVs] at hrest
      exact hrest.1
    have hvu2 : ¬ v2 = Jx.prim .undefined := by
      intro hv
      rw [hv] at hv2j
      simp [Jx.isJson] at hv2j
    have hsp2 : Jx.strPiecesKVs ((k2, v2) :: kvs) =
        (strLit k2 ++ ':' :: v2.strChars) :: Jx.strPiecesKVs kvs := by
      rw [Jx.strPiecesKVs, if_neg hvu2]
    have hsp : Jx.strPiecesKVs ((k, v) :: (k2, v2) :: kvs) =
        (strLit k ++ ':' :: v.strChars) :: (strLit k2 ++ ':' :: v2.strChars) ::
          Jx.strPiecesKVs kvs := by
      rw [Jx.strPiecesKVs, if_neg hvu, hsp2]
    rw [hsp, joinComma, ← hsp2]
    simp only [jxFuelKVs] at hl ⊢
    simp only [List.length_append, List.length_cons]
    omega
end

theorem joinComma_cons (p : List Char) (ps : List (List Char)) :
    ∃ t, joinComma (p :: ps) = p ++ t := by
  cases ps with
  | nil => exact ⟨[], by simp [joinComma]⟩
  | cons q qs => exact ⟨',' :: joinComma (q :: qs), rfl⟩

mutual
/-- Re-parsing the rendering of a JSON-representable value yields the
value back, with the trailing input untouched (provided the trailing
input cannot extend a number literal). -/
theorem rt_val : (j : Jx) → j.isJson = true → ∀ f, jxFuel j ≤ f →
    ∀ rest, digitBoundary rest = true →
    pVal f (j.strChars ++ rest) = some (j, rest)
  | .prim .undefined, hj, _, _, _, _ => by simp [Jx.isJson] at hj
  | .prim .null, _, f, hf, rest, hrest => by
    cases f with
    | zero => simp [jxFuel] at hf
    | succ g => simp +decide [Jx.strChars, pVal, skipWs]
  | .prim (.bool true), _, f, hf, rest, hrest => by
    cases f with
    | zero => simp [jxFuel] at hf
    | succ g => simp +decide [Jx.strChars, pVal, skipWs]
  | .prim (.bool false), _, f, hf, rest, hrest => by
    cases f with
    | zero => simp [jxFuel] at hf
    | succ g => simp +decide [Jx.strChars, pVal, skipWs]
  | .prim (.int n), _, f, hf, rest, hrest => by
    cases f with
    | zero => simp [jxFuel] at hf
    | succ g =>
      show pVal (g + 1) (intChars n ++ rest) = some (.prim (.int n), rest)
      unfold intChars
      by_cases hn : n < 0
      · rw [if_pos hn, List.cons_append]
        simp +decide [pVal, skipWs, pNat_natChars n.natAbs rest hrest]
        rw [abs_of_nonpos (le_of_lt hn)]
        omega
      · rw [if_neg hn]
        obtain ⟨d, ds, hnc⟩ : ∃ d ds, natChars n.natAbs = d :: ds := by
          rcases h : natChars n.natAbs with _ | ⟨d, ds⟩
          · exact absurd h (natChars_ne_nil _)
          · exact ⟨d, ds, rfl⟩
        have hdig : isDigit d = true := isDigit_natChars _ d (by rw [hnc]; simp)
        have hpos : ((n.natAbs : Nat) : Int) = n := by omega
        rw [hnc, List.cons_append, pVal,
          skipWs_cons_of_not_ws _ (isDigit_facts hdig).1]
        simp only [hdig, if_true]
        rw [← List.cons_append, ← hnc, pNat_natChars n.natAbs rest hrest]
        show some (Jx.prim (.int ((n.natAbs : Nat) : Int)), rest) =
          some (Jx.prim (.int n), rest)
        rw [hpos]
  | .prim (.str s), _, f, hf, rest, hrest => by
    cases f with
    | zero => simp [jxFuel] at hf
    | succ g =>
      show pVal (g + 1) (strLit s ++ rest) = some (.prim (.str s), rest)
      rw [strLit]
      simp only [List.cons_append, List.append_assoc]
      rw [pVal, skipWs_cons_of_not_ws _ (by decide)]
      have hps : pStr (escList s.data ++ '"' :: rest) = some (s.data, rest) :=
        pStr_escList s.data rest
      simp +decide [hps]
  | .arr xs, hj, f, hf, rest, hrest => by
    have hfl : Jx.isJsonList xs = true := by simpa [Jx.isJson] using hj
    match f, hf with
    | 0, hf => exact absurd hf (by simp only [jxFuel]; omega)
    | 1, hf => exact absurd hf (by simp only [jxFuel]; omega)
    | g + 2, hf =>
      show pVal (g + 1 + 1) (Jx.strChars (.arr xs) ++ rest) = some (.arr xs, rest)
      rw [show Jx.strChars (.arr xs) = '[' :: (joinComma (Jx.strPieces xs) ++ [']'])
          from rfl]
      rw [List.cons_append, pVal, skipWs_cons_of_not_ws _ (by decide)]
      simp +decide only []
      rw [List.append_assoc]
      show pElems (g + 1) (skipWs (joinComma (Jx.strPieces xs) ++ (']' :: rest))) =
        some (.arr xs, rest)
      cases xs with
      | nil =>
        simp +decide [Jx.strPieces, joinComma, skipWs, pElems]
      | cons x xs' =>
        obtain ⟨c, cs, hc, hws, hrb, _⟩ := strChars_head_spec x
        obtain ⟨t, ht⟩ := joinComma_cons (Jx.strChars x) (Jx.strPieces xs')
        have hshape : joinComma (Jx.strPieces (x :: xs')) ++ (']' :: rest) =
            c :: (cs ++ t ++ (']' :: rest)) := by
          rw [show Jx.strPieces (x :: xs') = Jx.strChars x :: Jx.strPieces xs' from rfl,
            ht, hc]
          simp
        rw [hshape, skipWs_cons_of_not_ws _ hws, pElems]
        rw [if_neg (by simp [hrb])]
        rw [← hshape]
        have hfuel : jxFuelList (x :: xs') ≤ g := by
          simp only [jxFuel] at hf
          omega
        rw [rt_elems (x :: xs') hfl (by simp) g hfuel rest]
  | .obj kvs, hj, f, hf, rest, hrest => by
    have hfl : Jx.isJsonKVs kvs = true := by simpa [Jx.isJson] using hj
    match f, hf with
    | 0, hf => exact absurd hf (by simp only [jxFuel]; omega)
    | 1, hf => exact absurd hf (by simp only [jxFuel]; omega)
    | g + 2, hf =>
      show pVal (g + 1 + 1) (Jx.strChars (.obj kvs) ++ rest) = some (.obj kvs, rest)
      rw [show Jx.strChars (.obj kvs) = '{' :: (joinComma (Jx.strPiecesKVs kvs) ++ ['}'])
          from rfl]
      rw [List.cons_append, pVal, skipWs_cons_of_not_ws _ (by decide)]
      simp +decide only []
      rw [List.append_assoc]
      show pMembers (g + 1) (skipWs (joinComma (Jx.strPiecesKVs kvs) ++ ('}' :: rest))) =
        some (.obj kvs, rest)
      cases kvs with
      | nil =>
        simp +decide [Jx.strPiecesKVs, joinComma, skipWs, pMembers]
      | cons kv kvs' =>
        obtain ⟨k, v⟩ := kv
        have hvu : ¬ v = Jx.prim .undefined := by
          intro hv
          rw [hv] at hfl
          simp [Jx.isJsonKVs, Jx.isJson] at hfl
        have hpieces : Jx.strPiecesKVs ((k, v) :: kvs') =
            (strLit k ++ ':' :: v.strChars) :: Jx.strPiecesKVs kvs' := by
          rw [Jx.strPiecesKVs, if_neg hvu]
        obtain ⟨t, ht⟩ := joinComma_cons (strLit k ++ ':' :: v.strChars)
          (Jx.strPiecesKVs kvs')
        have hshape : joinComma (Jx.strPiecesKVs ((k, v) :: kvs')) ++ ('}' :: rest) =
            '"' :: (escList k.data ++ ['"'] ++ ':' :: v.strChars ++ t ++ ('}' :: rest)) := by
          rw [hpieces, ht, strLit, List.cons_append]
          simp
        rw [hshape, skipWs_cons_of_not_ws _ (by decide), pMembers]
        rw [if_neg (by simp)]
        rw [← hshape]
        have hfuel : jxFuelKVs ((k, v) :: kvs') ≤ g := by
          simp only [jxFuel] at hf
          omega
        rw [rt_members ((k, v) :: kvs') hfl (by simp) g hfuel rest]

theorem rt_elems : (xs : List Jx) → Jx.isJsonList xs = true → xs ≠ [] →
    ∀ f, jxFuelList xs ≤ f → ∀ rest,
    pElemsNE f (joinComma (Jx.strPieces xs) ++ (']' :: rest)) = some (xs, rest)
  | [], _, hne, _, _, _ => absurd rfl hne
  | x :: xs, h, _, f, hfuel, rest => by
    have hxj : x.isJson = true := by
      simp [Jx.isJsonList] at h
      exact h.1
    have hxs : Jx.isJsonList xs = true := by
      simp [Jx.isJsonList] at h
      exact h.2
    match f, hfuel with
    | 0, hfuel => exact absurd hfuel (by simp only [jxFuelList]; omega)
    | g + 1, hfuel =>
      have hgx : jxFuel x ≤ g := by
        simp only [jxFuelList] at hfuel
        omega
      have hgxs : jxFuelList xs ≤ g := by
        simp only [jxFuelList] at hfuel
        omega
      cases xs with
      | nil =>
        rw [show joinComma (Jx.strPieces [x]) = Jx.strChars x from by
          simp [Jx.strPieces, joinComma]]
        have h1 : pVal g (Jx.strChars x ++ (']' :: rest)) = some (x, ']' :: rest) :=
          rt_val x hxj g hgx (']' :: rest) (by rfl)
        have h2 : skipWs (']' :: rest) = ']' :: rest :=
          skipWs_cons_of_not_ws _ (by decide)
        rw [pElemsNE, h1]
        simp only [h2]
      | cons y ys =>
        rw [show joinComma (Jx.strPieces (x :: y :: ys)) =
            Jx.strChars x ++ ',' :: joinComma (Jx.strPieces (y :: ys)) from rfl]
        rw [List.append_assoc, List.cons_append]
        have h1 : pVal g (Jx.strChars x ++
            (',' :: (joinComma (Jx.strPieces (y :: ys)) ++ (']' :: rest)))) =
            some (x, ',' :: (joinComma (Jx.strPieces (y :: ys)) ++ (']' :: rest))) :=
          rt_val x hxj g hgx _ (by rfl)
        have h2 : skipWs (',' :: (joinComma (Jx.strPieces (y :: ys)) ++ (']' :: rest))) =
            ',' :: (joinComma (Jx.strPieces (y :: ys)) ++ (']' :: rest)) :=
          skipWs_cons_of_not_ws _ (by decide)
        have h3 := rt_elems (y :: ys) hxs (by simp) g hgxs rest
        rw [pElemsNE, h1]
        simp only [h2, h3]

theorem rt_members : (kvs : List (String × Jx)) → Jx.isJsonKVs kvs = true → kvs ≠ [] →
    ∀ f, jxFuelKVs kvs ≤ f → ∀ rest,
    pMembersNE f (joinComma (Jx.strPiecesKVs kvs) ++ ('}' :: rest)) = some (kvs, rest)
  | [], _, hne, _, _, _ => absurd rfl hne
  | (k, v) :: kvs, h, _, f, hfuel, rest => by
    have hvj : v.isJson = true := by
      simp [Jx.isJsonKVs] at h
      exact h.1
    have hkvs : Jx.isJsonKVs kvs = true := by
      simp [Jx.isJsonKVs] at h
      exact h.2
    have hvu : ¬ v = Jx.prim .undefined := by
      intro hv
      rw [hv] at hvj
      simp [Jx.isJson] at hvj
    match f, hfuel with
    | 0, hfuel => exact absurd hfuel (by simp only [jxFuelKVs]; omega)
    | g + 1, hfuel =>
      have hgv : jxFuel v ≤ g := by
        simp only [jxFuelKVs] at hfuel
        omega
      have hgkvs : jxFuelKVs kvs ≤ g := by
        simp only [jxFuelKVs] at hfuel
        omega
      have hpieces : Jx.strPiecesKVs ((k, v) :: kvs) =
          (strLit k ++ ':' :: v.strChars) :: Jx.strPiecesKVs kvs := by
        rw [Jx.strPiecesKVs, if_neg hvu]
      cases hkk : Jx.strPiecesKVs kvs with
      | nil =>
        have hjoin : joinComma (Jx.strPiecesKVs ((k, v) :: kvs)) =
            strLit k ++ ':' :: v.strChars := by
          rw [hpieces, hkk, joinComma]
        have hkvs_nil : kvs = [] := by
          cases kvs with
          | nil => rfl
          | cons kv2 kvs2 =>
            obtain ⟨k2, v2⟩ := kv2
            have hv2j : v2.isJson = true := by
              simp [Jx.isJsonKVs] at hkvs
              exact hkvs.1
            have hvu2 : ¬ v2 = Jx.prim .undefined := by
              intro hv
              rw [hv] at hv2j
              simp [Jx.isJson] at hv2j
            rw [Jx.strPiecesKVs, if_neg hvu2] at hkk
            cases hkk
        subst hkvs_nil
        rw [hjoin, strLit]
        simp only [List.cons_append, List.append_assoc, List.nil_append]
        rw [pMembersNE, skipWs_cons_of_not_ws _ (by decide)]
        have hps : pStr (escList k.data ++ '"' :: (':' :: (v.strChars ++ ('}' :: rest)))) =
            some (k.data, ':' :: (v.strChars ++ ('}' :: rest))) :=
          pStr_escList k.data _
        have h2 : skipWs (':' :: (v.strChars ++ ('}' :: rest))) =
            ':' :: (v.strChars ++ ('}' :: rest)) :=
          skipWs_cons_of_not_ws _ (by decide)
        have h3 : pVal g (v.strChars ++ ('}' :: rest)) = some (v, '}' :: rest) :=
          rt_val v hvj g hgv ('}' :: rest) (by rfl)
        have h4 : skipWs ('}' :: rest) = '}' :: rest :=
          skipWs_cons_of_not_ws _ (by decide)
        simp +decide only [hps, h2, h3, h4]
      | cons p ps =>
        have hjoin : joinComma (Jx.strPiecesKVs ((k, v) :: kvs)) =
            (strLit k ++ ':' :: v.strChars) ++ ',' :: joinComma (p :: ps) := by
          rw [hpieces, hkk, joinComma]
        have hkvs_ne : kvs ≠ [] := by
          intro hnil
          rw [hnil] at hkk
          simp [Jx.strPiecesKVs] at hkk
        rw [hjoin, strLit]
        simp only [List.cons_append, List.append_assoc, List.nil_append]
        rw [pMembersNE, skipWs_cons_of_not_ws _ (by decide)]
        have hps : pStr (escList k.data ++ '"' :: (':' :: (v.strChars ++
            (',' :: (joinComma (p :: ps) ++ ('}' :: rest)))))) =
            some (k.data, ':' :: (v.strChars ++
              (',' :: (joinComma (p :: ps) ++ ('}' :: rest))))) :=
          pStr_escList k.data _
        have h2 : skipWs (':' :: (v.strChars ++
            (',' :: (joinComma (p :: ps) ++ ('}' :: rest))))) =
            ':' :: (v.strChars ++ (',' :: (joinComma (p :: ps) ++ ('}' :: rest)))) :=
          skipWs_cons_of_not_ws _ (by decide)
        have h3 : pVal g (v.strChars ++ (',' :: (joinComma (p :: ps) ++ ('}' :: rest)))) =
            some (v, ',' :: (joinComma (p :: ps) ++ ('}' :: rest))) :=
          rt_val v hvj g hgv _ (by rfl)
        have h4 : skipWs (',' :: (joinComma (p :: ps) ++ ('}' :: rest))) =
            ',' :: (joinComma (p :: ps) ++ ('}' :: rest)) :=
          skipWs_cons_of_not_ws _ (by decide)
        have h5 := rt_members kvs hkvs hkvs_ne g hgkvs rest
        rw [hkk] at h5
        simp +decide only [hps, h2, h3, h4, h5]
end

/-!
## Construction and persistence (claims C8, C9)

The filesystem is modelled as a set of existing directories plus a map
from paths to file contents.  `create` is the `IceCave` constructor
(`src/icecave.js` lines 29-60): it throws when `fs.existsSync(dir)` fails,
then seeds `core = Immutable.fromJS(data)` where `data` is the parsed
contents of `<dir>/<name>.json`, or `[]` when `require` throws (file
absent or not valid JSON).  The model reads the file afresh, as a fresh
process would (Node's `require` cache is outside the scope of the
claims).  `write` is the flush body (lines 260-262):
`JSON.stringify(core.toJS())` written over the file.
-/

namespace IceCave

structure FS where
  dirs : List String
  files : List (String × String)

/-- Contents of the first (most recently written) entry for a path. -/
def FS.readFile (fs : FS) (p : String) : Option String :=
  (fs.files.find? (fun e => e.1 == p)).map Prod.snd

/-- Overwrite a path with new contents. -/
def FS.writeFile (fs : FS) (p content : String) : FS :=
  ⟨fs.dirs, (p, content) :: fs.files⟩

/-- `` `${dir}/${name}.json` ``. -/
def dbPath (dir name : String) : String := dir ++ "/" ++ name ++ ".json"

/-- The `IceCave` constructor: fail when the directory does not exist;
otherwise seed the core from the JSON file, falling back silently to an
empty list when the file is absent or unparsable. -/
def create (fs : FS) (dir name : String) : Except String ImmVal :=
  if dir ∈ fs.dirs then
    Except.ok (match fs.readFile (dbPath dir name) with
      | some txt =>
        match parseDoc txt with
        | some j => j.toImm
        | none => ImmVal.list []
      | none => ImmVal.list [])
  else
    Except.error ("Whoops! The directory " ++ dir ++ " doesn't exist.")

/-- The flush body: `JSON.stringify(core.toJS())`. -/
def write (core : List ImmVal) : String :=
  String.mk (Jx.strChars (Jx.arr (core.map ImmVal.toJx)))

/-- One flush tick: overwrite `<dir>/<name>.json` with the serialised
core. -/
def flush (fs : FS) (dir name : String) (core : List ImmVal) : FS :=
  fs.writeFile (dbPath dir name) (write core)

/-- C8: construction fails exactly when the directory does not exist;
on success the initial core is the deep conversion of the parsed file
contents, and an absent or unparsable file silently yields an empty
sequence. -/
theorem create_semantics (fs : FS) (dir name : String) :
    ((create fs dir name).isOk = true ↔ dir ∈ fs.dirs) ∧
    (dir ∉ fs.dirs → create fs dir name =
      .error ("Whoops! The directory " ++ dir ++ " doesn't exist.")) ∧
    (∀ txt j, dir ∈ fs.dirs → fs.readFile (dbPath dir name) = some txt →
      parseDoc txt = some j → create fs dir name = .ok j.toImm) ∧
    (dir ∈ fs.dirs → fs.readFile (dbPath dir name) = none →
      create fs dir name = .ok (ImmVal.list [])) ∧
    (∀ txt, dir ∈ fs.dirs → fs.readFile (dbPath dir name) = some txt →
      parseDoc txt = none → create fs dir name = .ok (ImmVal.list [])) := by
  refine ⟨?_, ?_, ?_, ?_, ?_⟩
  · constructor
    · intro h
      by_contra hdir
      rw [create, if_neg hdir] at h
      simp [Except.isOk, Except.toBool] at h
    · intro hdir
      rw [create, if_pos hdir]
      rfl
  · intro hdir
    rw [create, if_neg hdir]
  · intro txt j hdir hread hparse
    rw [create, if_pos hdir, hread]
    show Except.ok (match parseDoc txt with
      | some j => j.toImm
      | none => ImmVal.list []) = _
    rw [hparse]
  · intro hdir hread
    rw [create, if_pos hdir, hread]
  · intro txt hdir hread hparse
    rw [create, if_pos hdir, hread]
    show Except.ok (match parseDoc txt with
      | some j => j.toImm
      | none => ImmVal.list []) = _
    rw [hparse]

theorem create_semantics_witness :
    create ⟨["d"], [("d/icecave.json", "not json")]⟩ "d" "icecave" =
      .ok (ImmVal.list []) ∧
    create ⟨["d"], [("d/icecave.json", "not json")]⟩ "missing" "icecave" =
      .error ("Whoops! The directory " ++ "missing" ++ " doesn't exist.") ∧
    create ⟨["d"], []⟩ "d" "icecave" = .ok (ImmVal.list []) := by
  refine ⟨?_, ?_, ?_⟩
  · exact (create_semantics ⟨["d"], [("d/icecave.json", "not json")]⟩ "d" "icecave").2.2.2.2
      "not json" (by decide) (by decide) (by decide)
  · exact (create_semantics ⟨["d"], [("d/icecave.json", "not json")]⟩ "missing"
      "icecave").2.1 (by decide)
  · exact (create_semantics ⟨["d"], []⟩ "d" "icecave").2.2.2.1 (by decide) (by decide)

/-- C9: a flush serialises the core as the JSON array of its records in
index order, and a fresh store constructed over the flushed file starts
with an equal sequence. -/
theorem flush_roundtrip (fs : FS) (dir name : String) (core : List ImmVal)
    (hdir : dir ∈ fs.dirs)
    (hjson : (Jx.arr (core.map ImmVal.toJx)).isJson = true) :
    parseDoc (write core) = some (Jx.arr (core.map ImmVal.toJx)) ∧
    create (flush fs dir name core) dir name = .ok (ImmVal.list core) := by
  have hparse : parseDoc (write core) = some (Jx.arr (core.map ImmVal.toJx)) := by
    set j := Jx.arr (core.map ImmVal.toJx) with hj
    have hfuel : jxFuel j ≤ 2 * (String.mk j.strChars).data.length + 2 := by
      have := fuelBound j hjson
      simp only [String.mk]
      omega
    have hval := rt_val j hjson (2 * (String.mk j.strChars).data.length + 2) hfuel [] rfl
    rw [List.append_nil] at hval
    rw [parseDoc]
    simp only [write, ← hj]
    rw [hval]
    rfl
  refine ⟨hparse, ?_⟩
  have hread : (flush fs dir name core).readFile (dbPath dir name) = some (write core) := by
    simp [flush, FS.writeFile, FS.readFile, List.find?]
  have h := (create_semantics (flush fs dir name core) dir name).2.2.1
    (write core) (Jx.arr (core.map ImmVal.toJx)) (by simpa [flush, FS.writeFile] using hdir)
    hread hparse
  rw [h]
  have : (Jx.arr (core.map ImmVal.toJx)).toImm = ImmVal.list core := by
    rw [show (Jx.arr (core.map ImmVal.toJx)).toImm =
      ImmVal.list (Jx.toImmList (core.map ImmVal.toJx)) from rfl]
    rw [Jx.toImmList_eq_map, List.map_map]
    congr 1
    calc core.map (Jx.toImm ∘ ImmVal.toJx) = core.map id := by
          apply List.map_congr_left
          intro m _
          exact ImmVal.toJx_toImm m
      _ = core := List.map_id core
  rw [this]

theorem flush_roundtrip_witness :
    create (flush ⟨["d"], []⟩ "d" "icecave"
        [ImmVal.map [("a", ImmVal.prim (.int 1))], ImmVal.map [("a", ImmVal.prim (.int 2))],
          ImmVal.map [("a", ImmVal.prim (.int 3))]]) "d" "icecave" =
      .ok (ImmVal.list
        [ImmVal.map [("a", ImmVal.prim (.int 1))], ImmVal.map [("a", ImmVal.prim (.int 2))],
          ImmVal.map [("a", ImmVal.prim (.int 3))]]) ∧
    [ImmVal.map [("a", ImmVal.prim (.int 1))], ImmVal.map [("a", ImmVal.prim (.int 2))],
      ImmVal.map [("a", ImmVal.prim (.int 3))]].length = 3 ∧
    first [ImmVal.map [("a", ImmVal.prim (.int 1))], ImmVal.map [("a", ImmVal.prim (.int 2))],
      ImmVal.map [("a", ImmVal.prim (.int 3))]] = Jx.obj [("a", Jx.prim (.int 1))] ∧
    last [ImmVal.map [("a", ImmVal.prim (.int 1))], ImmVal.map [("a", ImmVal.prim (.int 2))],
      ImmVal.map [("a", ImmVal.prim (.int 3))]] = Jx.obj [("a", Jx.prim (.int 3))] := by
  refine ⟨?_, by decide, by decide, by decide⟩
  exact (flush_roundtrip ⟨["d"], []⟩ "d" "icecave" _ (by decide) (by decide)).2

end IceCave

/-!
## The mutable-world heap model (claims C1, C10)

The copy-isolation claims talk about *mutating* plain JS values that
cross the store boundary, so plain values are modelled with an explicit
heap: a plain JS value is a primitive or a reference into a heap of
mutable array/object cells.  The store's internal Immutable structures
(`ImmVal`) contain no references at all — `Immutable.fromJS` deep-reads
its argument at call time (`jsToImm` below, fuel-bounded since JS object
graphs may be cyclic) and `toJS` deep-copies into freshly allocated
cells (`unpackAlloc` below, which only ever appends to the heap).
-/

/-- A plain JS value: a primitive, or a reference to a mutable cell. -/
inductive JSVal where
  | prim (p : Prim) : JSVal
  | ref (a : Nat) : JSVal
deriving DecidableEq, Repr

/-- A mutable heap cell: a JS array or object. -/
inductive HCell where
  | arr (elems : List JSVal) : HCell
  | obj (kvs : List (String × JSVal)) : HCell
deriving DecidableEq, Repr

/-- A heap of mutable cells; the address of a cell is its index, and
allocation appends. -/
abbrev Heap := List HCell

mutual
/-- `Immutable.fromJS` over the heap model: deep-read a plain value into
an Immutable structure.  Fuel-bounded; `none` means the fuel did not
cover the depth of the object graph. -/
def jsToImm : Nat → Heap → JSVal → Option ImmVal
  | 0, _, _ => none
  | _ + 1, _, .prim p => some (.prim p)
  | f + 1, h, .ref a =>
    match h[a]? with
    | some (.arr es) => (jsListToImm f h es).map ImmVal.list
    | some (.obj kvs) => (jsKVsToImm f h kvs).map ImmVal.map
    | none => none

def jsListToImm : Nat → Heap → List JSVal → Option (List ImmVal)
  | 0, _, _ => none
  | _ + 1, _, [] => some []
  | f + 1, h, v :: vs =>
    match jsToImm f h v, jsListToImm f h vs with
    | some m, some ms => some (m :: ms)
    | _, _ => none

def jsKVsToImm : Nat → Heap → List (String × JSVal) →
    Option (List (String × ImmVal))
  | 0, _, _ => none
  | _ + 1, _, [] => some []
  | f + 1, h, (k, v) :: kvs =>
    match jsToImm f h v, jsKVsToImm f h kvs with
    | some m, some ms => some ((k, m) :: ms)
    | _, _ => none
end

mutual
/-- `unpack` (`src/icecave.js` lines 74-76) over the heap model:
`item.toJS ? item.toJS() : item`.  A primitive (including `undefined`)
has no `toJS` and is returned as is; an Immutable List/Map is deep-copied
into freshly allocated cells.  The heap is only ever extended. -/
def unpackAlloc : ImmVal → Heap → JSVal × Heap
  | .prim p, h => (.prim p, h)
  | .list xs, h =>
    let r := unpackList xs h
    (.ref r.2.length, r.2 ++ [.arr r.1])
  | .map kvs, h =>
    let r := unpackKVs kvs h
    (.ref r.2.length, r.2 ++ [.obj r.1])

def unpackList : List ImmVal → Heap → List JSVal × Heap
  | [], h => ([], h)
  | x :: xs, h =>
    let r := unpackAlloc x h
    let r2 := unpackList xs r.2
    (r.1 :: r2.1, r2.2)

def unpackKVs : List (String × ImmVal) → Heap → List (String × JSVal) × Heap
  | [], h => ([], h)
  | (k, v) :: kvs, h =>
    let r := unpackAlloc v h
    let r2 := unpackKVs kvs r.2
    ((k, r.1) :: r2.1, r2.2)
end

mutual
/-- Fuel sufficient for `jsToImm` to read back an `unpackAlloc` copy. -/
def immFuel : ImmVal → Nat
  | .prim _ => 1
  | .list xs => 1 + immFuelList xs
  | .map kvs => 1 + immFuelKVs kvs

def immFuelList : List ImmVal → Nat
  | [] => 1
  | x :: xs => 1 + immFuel x + immFuelList xs

def immFuelKVs : List (String × ImmVal) → Nat
  | [] => 1
  | (_, v) :: kvs => 1 + immFuel v + immFuelKVs kvs
end

/-- The plain-tree denotation of a heap value. -/
def jsDenote (f : Nat) (h : Heap) (v : JSVal) : Option Jx :=
  (jsToImm f h v).map ImmVal.toJx

theorem lt_length_of_getElem?_eq_some {α : Type} {l : List α} {n : Nat} {a : α}
    (h : l[n]? = some a) : n < l.length := by
  by_contra hc
  rw [List.getElem?_eq_none (by omega)] at h
  exact Option.noConfusion h

mutual
/-- `jsToImm` is monotone in fuel. -/
theorem jsToImm_mono : (f f' : Nat) → f ≤ f' → ∀ h v m,
    jsToImm f h v = some m → jsToImm f' h v = some m
  | 0, _, _, _, v, m => by
    intro hv
    simp [jsToImm] at hv
  | f + 1, 0, hle, _, _, _ => by exact absurd hle (by omega)
  | f + 1, f' + 1, hle, h, v, m => by
    intro hv
    cases v with
    | prim p => simpa [jsToImm] using hv
    | ref a =>
      rw [jsToImm] at hv ⊢
      cases hcell : h[a]? with
      | none => rw [hcell] at hv; simp at hv
      | some cell =>
        rw [hcell] at hv
        cases cell with
        | arr es =>
          dsimp only at hv ⊢
          cases hes : jsListToImm f h es with
          | none => rw [hes] at hv; simp at hv
          | some ms =>
            rw [hes] at hv
            rw [jsListToImm_mono f f' (by omega) h es ms hes]
            exact hv
        | obj kvs =>
          dsimp only at hv ⊢
          cases hks : jsKVsToImm f h kvs with
          | none => rw [hks] at hv; simp at hv
          | some ms =>
            rw [hks] at hv
            rw [jsKVsToImm_mono f f' (by omega) h kvs ms hks]
            exact hv

theorem jsListToImm_mono : (f f' : Nat) → f ≤ f' → ∀ h vs ms,
    jsListToImm f h vs = some ms → jsListToImm f' h vs = some ms
  | 0, _, _, _, vs, ms => by
    intro hv
    simp [jsListToImm] at hv
  | f + 1, 0, hle, _, _, _ => by exact absurd hle (by omega)
  | f + 1, f' + 1, hle, h, vs, ms => by
    intro hv
    cases vs with
    | nil => simpa [jsListToImm] using hv
    | cons v vs =>
      rw [jsListToImm] at hv ⊢
      cases h1 : jsToImm f h v with
      | none => rw [h1] at hv; simp at hv
      | some m =>
        rw [h1] at hv
        cases h2 : jsListToImm f h vs with
        | none => rw [h2] at hv; simp at hv
        | some ms2 =>
          rw [h2] at hv
          rw [jsToImm_mono f f' (by omega) h v m h1,
            jsListToImm_mono f f' (by omega) h vs ms2 h2]
          exact hv

theorem jsKVsToImm_mono : (f f' : Nat) → f ≤ f' → ∀ h kvs ms,
    jsKVsToImm f h kvs = some ms → jsKVsToImm f' h kvs = some ms
  | 0, _, _, _, kvs, ms => by
    intro hv
    simp [jsKVsToImm] at hv
  | f + 1, 0, hle, _, _, _ => by exact absurd hle (by omega)
  | f + 1, f' + 1, hle, h, kvs, ms => by
    intro hv
    cases kvs with
    | nil => simpa [jsKVsToImm] using hv
    | cons kv kvs =>
      obtain ⟨k, v⟩ := kv
      rw [jsKVsToImm] at hv ⊢
      cases h1 : jsToImm f h v with
      | none => rw [h1] at hv; simp at hv
      | some m =>
        rw [h1] at hv
        cases h2 : jsKVsToImm f h kvs with
        | none => rw [h2] at hv; simp at hv
        | some ms2 =>
          rw [h2] at hv
          rw [jsToImm_mono f f' (by omega) h v m h1,
            jsKVsToImm_mono f f' (by omega) h kvs ms2 h2]
          exact hv
end

mutual
/-- `jsToImm` is stable under extending the heap with new cells. -/
theorem jsToImm_extend : (f : Nat) → ∀ h ext v m,
    jsToImm f h v = some m → jsToImm f (h ++ ext) v = some m
  | 0, h, ext, v, m => by
    intro hv
    simp [jsToImm] at hv
  | f + 1, h, ext, v, m => by
    intro hv
    cases v with
    | prim p => simpa [jsToImm] using hv
    | ref a =>
      rw [jsToImm] at hv ⊢
      cases hcell : h[a]? with
      | none => rw [hcell] at hv; simp at hv
      | some cell =>
        rw [hcell] at hv
        rw [List.getElem?_append_left (lt_length_of_getElem?_eq_some hcell), hcell]
        cases cell with
        | arr es =>
          dsimp only at hv ⊢
          cases hes : jsListToImm f h es with
          | none => rw [hes] at hv; simp at hv
          | some ms =>
            rw [hes] at hv
            rw [jsListToImm_extend f h ext es ms hes]
            exact hv
        | obj kvs =>
          dsimp only at hv ⊢
          cases hks : jsKVsToImm f h kvs with
          | none => rw [hks] at hv; simp at hv
          | some ms =>
            rw [hks] at hv
            rw [jsKVsToImm_extend f h ext kvs ms hks]
            exact hv

theorem jsListToImm_extend : (f : Nat) → ∀ h ext vs ms,
    jsListToImm f h vs = some ms → jsListToImm f (h ++ ext) vs = some ms
  | 0, h, ext, vs, ms => by
    intro hv
    simp [jsListToImm] at hv
  | f + 1, h, ext, vs, ms => by
    intro hv
    cases vs with
    | nil => simpa [jsListToImm] using hv
    | cons v vs =>
      rw [jsListToImm] at hv ⊢
      cases h1 : jsToImm f h v with
      | none => rw [h1] at hv; simp at hv
      | some m =>
        rw [h1] at hv
        cases h2 : jsListToImm f h vs with
        | none => rw [h2] at hv; simp at hv
        | some ms2 =>
          rw [h2] at hv
          rw [jsToImm_extend f h ext v m h1, jsListToImm_extend f h ext vs ms2 h2]
          exact hv

theorem jsKVsToImm_extend : (f : Nat) → ∀ h ext kvs ms,
    jsKVsToImm f h kvs = some ms → jsKVsToImm f (h ++ ext) kvs = some ms
  | 0, h, ext, kvs, ms => by
    intro hv
    simp [jsKVsToImm] at hv
  | f + 1, h, ext, kvs, ms => by
    intro hv
    cases kvs with
    | nil => simpa [jsKVsToImm] using hv
    | cons kv kvs =>
      obtain ⟨k, v⟩ := kv
      rw [jsKVsToImm] at hv ⊢
      cases h1 : jsToImm f h v with
      | none => rw [h1] at hv; simp at hv
      | some m =>
        rw [h1] at hv
        cases h2 : jsKVsToImm f h kvs with
        | none => rw [h2] at hv; simp at hv
        | some ms2 =>
          rw [h2] at hv
          rw [jsToImm_extend f h ext v m h1, jsKVsToImm_extend f h ext kvs ms2 h2]
          exact hv
end

mutual
/-- `unpackAlloc` only ever appends to the heap: every cell that existed
before the copy is untouched. -/
theorem unpackAlloc_growth : (m : ImmVal) → ∀ h, ∃ ext, (unpackAlloc m h).2 = h ++ ext
  | .prim p, h => ⟨[], by simp [unpackAlloc]⟩
  | .list xs, h => by
    obtain ⟨ext, hext⟩ := unpackList_growth xs h
    exact ⟨ext ++ [.arr (unpackList xs h).1], by simp [unpackAlloc, hext]⟩
  | .map kvs, h => by
    obtain ⟨ext, hext⟩ := unpackKVs_growth kvs h
    exact ⟨ext ++ [.obj (unpackKVs kvs h).1], by simp [unpackAlloc, hext]⟩

theorem unpackList_growth : (xs : List ImmVal) → ∀ h, ∃ ext, (unpackList xs h).2 = h ++ ext
  | [], h => ⟨[], by simp [unpackList]⟩
  | x :: xs, h => by
    obtain ⟨e1, h1⟩ := unpackAlloc_growth x h
    obtain ⟨e2, h2⟩ := unpackList_growth xs (unpackAlloc x h).2
    refine ⟨e1 ++ e2, ?_⟩
    show (unpackList xs (unpackAlloc x h).2).2 = h ++ (e1 ++ e2)
    rw [h2, h1, List.append_assoc]

theorem unpackKVs_growth : (kvs : List (String × ImmVal)) → ∀ h,
    ∃ ext, (unpackKVs kvs h).2 = h ++ ext
  | [], h => ⟨[], by simp [unpackKVs]⟩
  | (k, v) :: kvs, h => by
    obtain ⟨e1, h1⟩ := unpackAlloc_growth v h
    obtain ⟨e2, h2⟩ := unpackKVs_growth kvs (unpackAlloc v h).2
    refine ⟨e1 ++ e2, ?_⟩
    show (unpackKVs kvs (unpackAlloc v h).2).2 = h ++ (e1 ++ e2)
    rw [h2, h1, List.append_assoc]
end

mutual
/-- Reading an `unpackAlloc` copy back through `fromJS` recovers exactly
the Immutable value it was copied from — the copy is deep-equal to the
internal value, for any starting heap. -/
theorem unpack_rt : (m : ImmVal) → ∀ h,
    jsToImm (immFuel m) (unpackAlloc m h).2 (unpackAlloc m h).1 = some m
  | .prim p, h => by simp [unpackAlloc, immFuel, jsToImm]
  | .list xs, h => by
    have hrt := unpackList_rt xs h
    show jsToImm (1 + immFuelList xs)
      ((unpackList xs h).2 ++ [.arr (unpackList xs h).1])
      (.ref (unpackList xs h).2.length) = some (.list xs)
    rw [show 1 + immFuelList xs = immFuelList xs + 1 from by omega]
    rw [jsToImm, List.getElem?_concat_length]
    dsimp only
    rw [jsListToImm_extend _ _ _ _ _ hrt]
    rfl
  | .map kvs, h => by
    have hrt := unpackKVs_rt kvs h
    show jsToImm (1 + immFuelKVs kvs)
      ((unpackKVs kvs h).2 ++ [.obj (unpackKVs kvs h).1])
      (.ref (unpackKVs kvs h).2.length) = some (.map kvs)
    rw [show 1 + immFuelKVs kvs = immFuelKVs kvs + 1 from by omega]
    rw [jsToImm, List.getElem?_concat_length]
    dsimp only
    rw [jsKVsToImm_extend _ _ _ _ _ hrt]
    rfl

theorem unpackList_rt : (xs : List ImmVal) → ∀ h,
    jsListToImm (immFuelList xs) (unpackList xs h).2 (unpackList xs h).1 = some xs
  | [], h => by simp [unpackList, immFuelList, jsListToImm]
  | x :: xs, h => by
    have hx := unpack_rt x h
    have hxs := unpackList_rt xs (unpackAlloc x h).2
    obtain ⟨ext, hext⟩ := unpackList_growth xs (unpackAlloc x h).2
    show jsListToImm (1 + immFuel x + immFuelList xs)
      (unpackList xs (unpackAlloc x h).2).2
      ((unpackAlloc x h).1 :: (unpackList xs (unpackAlloc x h).2).1) = some (x :: xs)
    rw [show 1 + immFuel x + immFuelList xs = (immFuel x + immFuelList xs) + 1 from by
      omega]
    rw [jsListToImm]
    have hx2 : jsToImm (immFuel x + immFuelList xs)
        (unpackList xs (unpackAlloc x h).2).2 (unpackAlloc x h).1 = some x := by
      apply jsToImm_mono (immFuel x) _ (by omega)
      rw [hext]
      exact jsToImm_extend _ _ _ _ _ hx
    have hxs2 : jsListToImm (immFuel x + immFuelList xs)
        (unpackList xs (unpackAlloc x h).2).2
        (unpackList xs (unpackAlloc x h).2).1 = some xs :=
      jsListToImm_mono _ _ (by omega) _ _ _ hxs
    rw [hx2, hxs2]

theorem unpackKVs_rt : (kvs : List (String × ImmVal)) → ∀ h,
    jsKVsToImm (immFuelKVs kvs) (unpackKVs kvs h).2 (unpackKVs kvs h).1 = some kvs
  | [], h => by simp [unpackKVs, immFuelKVs, jsKVsToImm]
  | (k, v) :: kvs, h => by
    have hv := unpack_rt v h
    have hkvs := unpackKVs_rt kvs (unpackAlloc v h).2
    obtain ⟨ext, hext⟩ := unpackKVs_growth kvs (unpackAlloc v h).2
    show jsKVsToImm (1 + immFuel v + immFuelKVs kvs)
      (unpackKVs kvs (unpackAlloc v h).2).2
      ((k, (unpackAlloc v h).1) :: (unpackKVs kvs (unpackAlloc v h).2).1) =
      some ((k, v) :: kvs)
    rw [show 1 + immFuel v + immFuelKVs kvs = (immFuel v + immFuelKVs kvs) + 1 from by
      omega]
    rw [jsKVsToImm]
    have hv2 : jsToImm (immFuel v + immFuelKVs kvs)
        (unpackKVs kvs (unpackAlloc v h).2).2 (unpackAlloc v h).1 = some v := by
      apply jsToImm_mono (immFuel v) _ (by omega)
      rw [hext]
      exact jsToImm_extend _ _ _ _ _ hv
    have hkvs2 : jsKVsToImm (immFuel v + immFuelKVs kvs)
        (unpackKVs kvs (unpackAlloc v h).2).2
        (unpackKVs kvs (unpackAlloc v h).2).1 = some kvs :=
      jsKVsToImm_mono _ _ (by omega) _ _ _ hkvs
    rw [hv2, hkvs2]
end

namespace IceCave

/-!
### Heap-level read and write operations (claims C1, C10)

Each operation is the corresponding closure of `src/icecave.js` with
`unpack`/`Immutable.fromJS` made explicit over the heap: reads select the
same Immutable value as the pure operations above and then deep-copy it
into fresh cells with `unpackAlloc`; writes convert their argument with
`jsToImm` at call time.
-/

/-- The Immutable value selected by `find` before unpacking:
`core.find((item) => fn(unpack(item)))`, `undefined` when nothing
matches. -/
def findImm (core : List ImmVal) (p : Jx → Bool) : ImmVal :=
  match core.find? (fun m => p m.toJx) with
  | some m => m
  | none => .prim .undefined

/-- The Immutable list selected by `filter` before unpacking. -/
def filterImm (core : List ImmVal) (p : Jx → Bool) : ImmVal :=
  .list (core.filter (fun m => p m.toJx))

/-- `core.first()` before unpacking. -/
def firstImm (core : List ImmVal) : ImmVal := core.headD (.prim .undefined)

/-- `core.last()` before unpacking. -/
def lastImm (core : List ImmVal) : ImmVal := (core.getLast?).getD (.prim .undefined)

/-- `get(index)` at the heap level: `unpack(core.get(index))`. -/
def getJS (core : List ImmVal) (i : Int) (h : Heap) : JSVal × Heap :=
  unpackAlloc (coreGet core i) h

/-- `find(fn)` at the heap level. -/
def findJS (core : List ImmVal) (p : Jx → Bool) (h : Heap) : JSVal × Heap :=
  unpackAlloc (findImm core p) h

/-- `filter(fn)` at the heap level. -/
def filterJS (core : List ImmVal) (p : Jx → Bool) (h : Heap) : JSVal × Heap :=
  unpackAlloc (filterImm core p) h

/-- `first()` at the heap level. -/
def firstJS (core : List ImmVal) (h : Heap) : JSVal × Heap :=
  unpackAlloc (firstImm core) h

/-- `last()` at the heap level. -/
def lastJS (core : List ImmVal) (h : Heap) : JSVal × Heap :=
  unpackAlloc (lastImm core) h

/-- `push(val)` at the heap level: `core.push(Immutable.fromJS(val))`,
with the conversion reading the caller's heap at call time. -/
def pushJS (core : List ImmVal) (v : JSVal) (h : Heap) (f : Nat) :
    Option (List ImmVal × Nat) :=
  (jsToImm f h v).map (fun m => (core ++ [m], core.length))

/-- `set(index, val)` at the heap level:
`core.set(index, Immutable.fromJS(val))`. -/
def setJS (core : List ImmVal) (i : Int) (v : JSVal) (h : Heap) (f : Nat) :
    Option (List ImmVal) :=
  (jsToImm f h v).map (fun m => set core i m.toJx)

theorem findImm_toJx (core : List ImmVal) (p : Jx → Bool) :
    (findImm core p).toJx = find core p := by
  unfold findImm find
  cases core.find? (fun m => p m.toJx) <;> rfl

theorem filterImm_toJx (core : List ImmVal) (p : Jx → Bool) :
    (filterImm core p).toJx = filter core p := by
  unfold filterImm filter
  rw [show (ImmVal.list (core.filter (fun m => p m.toJx))).toJx =
    Jx.arr (ImmVal.toJxList (core.filter (fun m => p m.toJx))) from rfl]
  rw [ImmVal.toJxList_eq_map]

/-- C1: every read operation deep-copies into freshly allocated cells:
the heap is only ever extended (no existing cell — in particular none
holding a previously returned value — is modified), and the denotation
of the returned copy equals the pure read of the core under *every*
heap.  Hence repeated reads without intervening store mutation are
deep-equal, and mutating a previously returned value (which only
changes heap cells) never changes the result of any subsequent read. -/
theorem read_copy_isolation (core : List ImmVal) (i : Int) (p : Jx → Bool) (h : Heap) :
    (jsDenote (immFuel (coreGet core i)) (getJS core i h).2 (getJS core i h).1 =
        some (get core i) ∧
      ∃ ext, (getJS core i h).2 = h ++ ext) ∧
    (jsDenote (immFuel (findImm core p)) (findJS core p h).2 (findJS core p h).1 =
        some (find core p) ∧
      ∃ ext, (findJS core p h).2 = h ++ ext) ∧
    (jsDenote (immFuel (filterImm core p)) (filterJS core p h).2 (filterJS core p h).1 =
        some (filter core p) ∧
      ∃ ext, (filterJS core p h).2 = h ++ ext) ∧
    (jsDenote (immFuel (firstImm core)) (firstJS core h).2 (firstJS core h).1 =
        some (first core) ∧
      ∃ ext, (firstJS core h).2 = h ++ ext) ∧
    (jsDenote (immFuel (lastImm core)) (lastJS core h).2 (lastJS core h).1 =
        some (last core) ∧
      ∃ ext, (lastJS core h).2 = h ++ ext) := by
  refine ⟨⟨?_, unpackAlloc_growth _ h⟩, ⟨?_, unpackAlloc_growth _ h⟩,
    ⟨?_, unpackAlloc_growth _ h⟩, ⟨?_, unpackAlloc_growth _ h⟩,
    ⟨?_, unpackAlloc_growth _ h⟩⟩
  · rw [jsDenote, getJS, unpack_rt]
    rfl
  · rw [jsDenote, findJS, unpack_rt, Option.map_some', findImm_toJx]
  · rw [jsDenote, filterJS, unpack_rt, Option.map_some', filterImm_toJx]
  · rw [jsDenote, firstJS, unpack_rt]
    rfl
  · rw [jsDenote, lastJS, unpack_rt]
    rfl

/-- C10: `push` and `set` store the deep conversion of their argument
taken at call time — the resulting core is a pure value mentioning no
heap cell, so a `get` of the written index returns a value denoting the
conversion of the argument as it was at call time, under *every* later
heap; mutating the object passed as the argument after the call
therefore never changes the value returned by a subsequent read. -/
theorem write_isolation (core : List ImmVal) (v : JSVal) (h : Heap) (f : Nat)
    (m : ImmVal) (hconv : jsToImm f h v = some m) :
    pushJS core v h f = some (core ++ [m], core.length) ∧
    (∀ h₂ : Heap, jsDenote (immFuel m) (getJS (core ++ [m]) core.length h₂).2
      (getJS (core ++ [m]) core.length h₂).1 = some m.toJx) ∧
    (∀ i : Int, 0 ≤ i → i < (core.length : Int) →
      setJS core i v h f = some (core.set i.toNat m) ∧
      ∀ h₂ : Heap, jsDenote (immFuel m) (getJS (core.set i.toNat m) i h₂).2
        (getJS (core.set i.toNat m) i h₂).1 = some m.toJx) := by
  refine ⟨?_, ?_, ?_⟩
  · rw [pushJS, hconv]
    rfl
  · intro h₂
    have hsel : coreGet (core ++ [m]) (core.length : Int) = m := by
      rw [coreGet_getElem (core ++ [m]) core.length (by simp)]
      exact List.getElem_concat_length core m core.length rfl _
    rw [jsDenote, getJS, hsel, unpack_rt]
    rfl
  · intro i h0 hlt
    have hset : set core i m.toJx = core.set i.toNat m := by
      simp only [set, wrapIndex_of_nonneg h0]
      rw [if_neg (by omega), if_pos hlt, ImmVal.toJx_toImm]
    constructor
    · rw [setJS, hconv, Option.map_some', hset]
    · intro h₂
      have hsel : coreGet (core.set i.toNat m) i = m := by
        have hi : i.toNat < (core.set i.toNat m).length := by
          simp
          omega
        rw [coreGet_in_range _ i h0, List.getD_eq_getElem?_getD,
          List.getElem?_eq_getElem hi]
        simp [List.getElem_set_self hi]
      rw [jsDenote, getJS, hsel, unpack_rt]
      rfl

theorem write_isolation_witness :
    pushJS [] (JSVal.ref 0) [HCell.obj [("a", JSVal.prim (.int 1))]] 3 =
      some ([ImmVal.map [("a", ImmVal.prim (.int 1))]], 0) ∧
    jsDenote (immFuel (ImmVal.map [("a", ImmVal.prim (.int 1))]))
      (getJS [ImmVal.map [("a", ImmVal.prim (.int 1))]] 0 []).2
      (getJS [ImmVal.map [("a", ImmVal.prim (.int 1))]] 0 []).1 =
      some (Jx.obj [("a", Jx.prim (.int 1))]) := by
  have h := write_isolation [] (JSVal.ref 0) [HCell.obj [("a", JSVal.prim (.int 1))]] 3
    (ImmVal.map [("a", ImmVal.prim (.int 1))]) (by decide)
  exact ⟨h.1, h.2.1 []⟩

end IceCave
